import Mathlib

/-!
Verification development for the `costools` time-filtering engine
(`costools/timefilter.py`).  The definitions below are a shallow embedding
of the code: times are rationals, numpy boolean arrays are `List Bool`,
the int16 DQ column is a `List ℕ` of values below `2 ^ 16`.
-/

/-- Bad-time-interval quality flag (calcosparam.DQ_BAD_TIME, value 2048). -/
def DQ_BAD_TIME : ℕ := 2048

/-- Burst quality flag.  Modelled from the spec: "burst-rejected" is an
external, fixed, reserved bit value distinct from the bad-time bit
(calcosparam.DQ_BURST, value 64). -/
def DQ_BURST : ℕ := 64

/-! ### `TimelineFilter.mergeGTI` (timefilter.py lines 1001-1039)

`mergeInner a l` is the body of the inner `for` loop of `mergeGTI` for a
fixed interval `a = (start_1, stop_1)` of the first GTI table, run over the
whole second table `l`; the branch structure mirrors the source. -/

def mergeInner (a : ℚ × ℚ) : List (ℚ × ℚ) → List (ℚ × ℚ)
  | [] => []
  | b :: rest =>
    if b.2 ≤ a.1 then mergeInner a rest
    else if a.2 ≤ b.1 then mergeInner a rest
    else if a.1 ≤ b.1 ∧ b.2 ≤ a.2 then (b.1, b.2) :: mergeInner a rest
    else if b.1 ≤ a.1 ∧ b.2 ≤ a.2 then (a.1, b.2) :: mergeInner a rest
    else if a.1 ≤ b.1 ∧ a.2 < b.2 then (b.1, a.2) :: mergeInner a rest
    else if b.1 ≤ a.1 ∧ a.2 ≤ b.2 then (a.1, a.2) :: mergeInner a rest
    else mergeInner a rest

/-- `TimelineFilter.mergeGTI`: for every interval of `first_gti`, scan all of
`second_gti` and append the overlap of each overlapping pair. -/
def mergeGTI (first_gti second_gti : List (ℚ × ℚ)) : List (ℚ × ℚ) :=
  first_gti.flatMap (fun a => mergeInner a second_gti)

/-- Stated from the spec's words, for comparison with `mergeGTI`: for every
pair of one original interval and one derived interval that overlap (each
interval starts strictly before the other stops), emit exactly one interval
whose start is the larger of the two starts and whose stop is the smaller of
the two stops; emit nothing for non-overlapping pairs. -/
def specIntersect (g1 g2 : List (ℚ × ℚ)) : List (ℚ × ℚ) :=
  g1.flatMap (fun a => g2.filterMap (fun b =>
    if a.1 < b.2 ∧ b.1 < a.2 then some (max a.1 b.1, min a.2 b.2) else none))

lemma mergeInner_eq_spec (a : ℚ × ℚ) (l : List (ℚ × ℚ)) :
    mergeInner a l = l.filterMap (fun b =>
      if a.1 < b.2 ∧ b.1 < a.2 then some (max a.1 b.1, min a.2 b.2) else none) := by
  induction l with
  | nil => rfl
  | cons b rest ih =>
    simp only [mergeInner, List.filterMap_cons]
    by_cases hc : a.1 < b.2 ∧ b.1 < a.2
    · rw [if_pos hc]
      rw [if_neg (not_le.mpr hc.1), if_neg (not_le.mpr hc.2)]
      rcases le_or_lt b.2 a.2 with hX | hX <;> rcases le_or_lt a.1 b.1 with hY | hY
      · rw [if_pos ⟨hY, hX⟩, ih, max_eq_right hY, min_eq_right hX]
      · rw [if_neg (fun h => absurd h.1 (not_le.mpr hY)), if_pos ⟨le_of_lt hY, hX⟩, ih,
          max_eq_left (le_of_lt hY), min_eq_right hX]
      · rw [if_neg (fun h => absurd h.2 (not_le.mpr hX)),
          if_neg (fun h => absurd h.2 (not_le.mpr hX)), if_pos ⟨hY, hX⟩, ih,
          max_eq_right hY, min_eq_left (le_of_lt hX)]
      · rw [if_neg (fun h => absurd h.1 (not_le.mpr hY)),
          if_neg (fun h => absurd h.2 (not_le.mpr hX)),
          if_neg (fun h => absurd h.1 (not_le.mpr hY)),
          if_pos ⟨le_of_lt hY, le_of_lt hX⟩, ih,
          max_eq_left (le_of_lt hY), min_eq_left (le_of_lt hX)]
    · rw [if_neg hc]
      rcases le_or_lt b.2 a.1 with h1 | h1
      · rw [if_pos h1, ih]
      · have h2 : a.2 ≤ b.1 := by
          by_contra h2
          exact hc ⟨h1, not_le.mp h2⟩
        rw [if_neg (not_le.mpr h1), if_pos h2, ih]

/-- `mergeGTI` agrees with the spec's description of GTI intersection. -/
lemma mergeGTI_eq_spec (g1 g2 : List (ℚ × ℚ)) :
    mergeGTI g1 g2 = specIntersect g1 g2 := by
  simp only [mergeGTI, specIntersect, mergeInner_eq_spec]

/-- Claim C3: `mergeGTI` emits, for each overlapping pair of one original and
one derived interval, exactly one interval whose start is the larger of the
two starts and whose stop is the smaller of the two stops, and emits nothing
for non-overlapping pairs; the two concrete scenarios from the spec. -/
theorem mergeGTI_overlap_pairs :
    (∀ g1 g2 : List (ℚ × ℚ), mergeGTI g1 g2 = specIntersect g1 g2) ∧
    mergeGTI [((0:ℚ), 100)] [((10:ℚ), 40), (60, 90)] = [((10:ℚ), 40), (60, 90)] ∧
    mergeGTI [((0:ℚ), 100)] [((-5:ℚ), 40)] = [((0:ℚ), 40)] :=
  ⟨mergeGTI_eq_spec, by decide, by decide⟩

/-! ### `TimelineFilter.roundGTI` (timefilter.py lines 1041-1062)

Python's `round(t, precision)` rounds half to even.  `roundHalfEven n d` is
the round-half-even of the fraction `n / d` (`d > 0`), written with integer
division so that it is kernel-computable; `pyRound p x` models
`round(x, p) = roundHalfEven(x * 10 ** p) / 10 ** p`. -/

def roundHalfEven (n d : ℤ) : ℤ :=
  if 2 * (n % d) < d then n / d
  else if d < 2 * (n % d) then n / d + 1
  else if (n / d) % 2 = 0 then n / d else n / d + 1

/-- Modelled from the spec: Python's `round(x, p)` on an exact rational. -/
def pyRound (p : ℕ) (x : ℚ) : ℚ :=
  Rat.divInt (roundHalfEven (x.num * 10 ^ p) (x.den : ℤ)) (10 ^ p)

/-- `TimelineFilter.roundGTI`: round the start and stop times of every
interval to `precision` decimals. -/
def roundGTI (input_gti : List (ℚ × ℚ)) (precision : ℕ) : List (ℚ × ℚ) :=
  input_gti.map (fun t => (pyRound precision t.1, pyRound precision t.2))

lemma roundHalfEven_bounds (n d : ℤ) :
    n / d ≤ roundHalfEven n d ∧ roundHalfEven n d ≤ n / d + 1 := by
  unfold roundHalfEven
  split_ifs <;> omega

lemma ediv_le_ediv_cross {n1 d1 n2 d2 : ℤ} (hd1 : 0 < d1) (hd2 : 0 < d2)
    (h : n1 * d2 ≤ n2 * d1) : n1 / d1 ≤ n2 / d2 := by
  rw [Int.le_ediv_iff_mul_le hd2]
  have h1 : n1 / d1 * d1 ≤ n1 := Int.ediv_mul_le n1 (ne_of_gt hd1)
  have h2 : n1 / d1 * d1 * d2 ≤ n2 * d1 := le_trans
    (mul_le_mul_of_nonneg_right h1 (le_of_lt hd2)) h
  have h3 : n1 / d1 * d2 * d1 ≤ n2 * d1 := by linarith [h2, mul_comm d1 d2]
  exact le_of_mul_le_mul_right h3 hd1

lemma roundHalfEven_mono {n1 d1 n2 d2 : ℤ} (hd1 : 0 < d1) (hd2 : 0 < d2)
    (h : n1 * d2 ≤ n2 * d1) : roundHalfEven n1 d1 ≤ roundHalfEven n2 d2 := by
  have hq : n1 / d1 ≤ n2 / d2 := ediv_le_ediv_cross hd1 hd2 h
  have hb1 := roundHalfEven_bounds n1 d1
  have hb2 := roundHalfEven_bounds n2 d2
  rcases lt_or_eq_of_le hq with hlt | heq
  · omega
  · -- same integer part; compare the fractional parts r1 / d1 and r2 / d2
    have hr : n1 % d1 * d2 ≤ n2 % d2 * d1 := by
      rw [Int.emod_def, Int.emod_def, heq]
      have expand : (n1 - d1 * (n2 / d2)) * d2 = n1 * d2 - d1 * (n2 / d2) * d2 := by ring
      have expand2 : (n2 - d2 * (n2 / d2)) * d1 = n2 * d1 - d1 * (n2 / d2) * d2 := by ring
      rw [expand, expand2]
      linarith [h]
    have k1 : d1 ≤ 2 * (n1 % d1) → d2 ≤ 2 * (n2 % d2) := fun hge => by
      have h1 : d1 * d2 ≤ 2 * (n1 % d1) * d2 := mul_le_mul_of_nonneg_right hge hd2.le
      have h2 : 2 * (n1 % d1) * d2 ≤ 2 * (n2 % d2) * d1 := by linarith [hr]
      have h3 : d2 * d1 ≤ 2 * (n2 % d2) * d1 := by linarith [h1, h2, mul_comm d1 d2]
      exact le_of_mul_le_mul_right h3 hd1
    have k2 : d1 < 2 * (n1 % d1) → d2 < 2 * (n2 % d2) := fun hgt => by
      have h1 : d1 * d2 < 2 * (n1 % d1) * d2 :=
        mul_lt_mul_of_pos_right hgt hd2
      have h2 : 2 * (n1 % d1) * d2 ≤ 2 * (n2 % d2) * d1 := by linarith [hr]
      have h3 : d2 * d1 < 2 * (n2 % d2) * d1 := by linarith [h1, h2, mul_comm d1 d2]
      exact lt_of_mul_lt_mul_right h3 hd1.le
    unfold roundHalfEven
    rw [heq]
    split_ifs <;> omega

lemma pyRound_mono (p : ℕ) {x y : ℚ} (hxy : x ≤ y) : pyRound p x ≤ pyRound p y := by
  unfold pyRound
  have hp : (0:ℤ) < 10 ^ p := by positivity
  rw [Rat.divInt_le_divInt hp hp]
  have hx : (0:ℤ) < (x.den : ℤ) := mod_cast x.pos
  have hy : (0:ℤ) < (y.den : ℤ) := mod_cast y.pos
  have hcross : x.num * (y.den : ℤ) ≤ y.num * (x.den : ℤ) :=
    (Rat.divInt_le_divInt hx hy).mp
      (by rwa [Rat.num_divInt_den, Rat.num_divInt_den])
  have hcross2 : x.num * 10 ^ p * (y.den : ℤ) ≤ y.num * 10 ^ p * (x.den : ℤ) := by
    have := mul_le_mul_of_nonneg_right hcross (le_of_lt hp)
    linarith [this, mul_comm (x.num * (y.den : ℤ)) ((10:ℤ) ^ p)]
  exact mul_le_mul_of_nonneg_right
    (roundHalfEven_mono hx hy hcross2) (le_of_lt hp)

lemma flatMap_congr_mem {α β : Type} {l : List α} {f g : α → List β}
    (h : ∀ x ∈ l, f x = g x) : l.flatMap f = l.flatMap g := by
  induction l with
  | nil => rfl
  | cons a t ih =>
    simp only [List.flatMap_cons]
    rw [h a (List.mem_cons_self a t), ih (fun x hx => h x (List.mem_cons_of_mem a hx))]

lemma mergeInner_nil_of_right {a : ℚ × ℚ} {l : List (ℚ × ℚ)}
    (h : ∀ b ∈ l, a.2 ≤ b.1) : mergeInner a l = [] := by
  induction l with
  | nil => rfl
  | cons b rest ih =>
    have hb : a.2 ≤ b.1 := h b (List.mem_cons_self b rest)
    have ih' := ih (fun x hx => h x (List.mem_cons_of_mem b hx))
    simp only [mergeInner]
    rcases le_or_lt b.2 a.1 with h1 | h1
    · rw [if_pos h1]; exact ih'
    · rw [if_neg (not_le.mpr h1), if_pos hb]; exact ih'

lemma mergeInner_skip_head {x a : ℚ × ℚ} {l : List (ℚ × ℚ)}
    (h : a.2 ≤ x.1) : mergeInner x (a :: l) = mergeInner x l := by
  simp only [mergeInner]
  rw [if_pos h]

/-- Intersecting a strictly ordered GTI table with itself returns it unchanged. -/
lemma mergeGTI_self {g : List (ℚ × ℚ)} (h1 : ∀ p ∈ g, p.1 < p.2)
    (h2 : List.Pairwise (fun p q : ℚ × ℚ => p.2 ≤ q.1) g) :
    mergeGTI g g = g := by
  induction g with
  | nil => rfl
  | cons a t ih =>
    have ha : a.1 < a.2 := h1 a (List.mem_cons_self a t)
    have hrel : ∀ x ∈ t, a.2 ≤ x.1 := fun x hx => (List.pairwise_cons.mp h2).1 x hx
    have head_eq : mergeInner a (a :: t) = [a] := by
      simp only [mergeInner]
      rw [if_neg (not_le.mpr ha), if_neg (not_le.mpr ha),
        if_pos ⟨le_refl a.1, le_refl a.2⟩, mergeInner_nil_of_right hrel]
    have tail_eq : t.flatMap (fun x => mergeInner x (a :: t)) =
        t.flatMap (fun x => mergeInner x t) :=
      flatMap_congr_mem (fun x hx => mergeInner_skip_head (hrel x hx))
    have ih' := ih (fun p hp => h1 p (List.mem_cons_of_mem a hp))
      (List.pairwise_cons.mp h2).2
    simp only [mergeGTI, List.flatMap_cons] at ih' ⊢
    rw [head_eq, tail_eq, ih']
    rfl

/-- Counterexample to claim C8 as stated: a GTI table satisfying the
data-model invariant (`stop ≥ start`, non-overlapping, ascending) is not
always returned unchanged by self-intersection plus rounding.  A degenerate
interval `[5, 5]` is dropped by the intersection, and an interval bound that
is not exact at 3 decimals (here `1/3`) is changed by the rounding. -/
theorem mergeGTI_round_self_counterexample :
    ((5:ℚ) ≤ 5 ∧ roundGTI (mergeGTI [((5:ℚ), 5)] [((5:ℚ), 5)]) 3 ≠ [((5:ℚ), 5)]) ∧
    ((0:ℚ) ≤ mkRat 1 3 ∧
      roundGTI (mergeGTI [((0:ℚ), mkRat 1 3)] [((0:ℚ), mkRat 1 3)]) 3 ≠
        [((0:ℚ), mkRat 1 3)]) := by
  constructor
  · exact ⟨by norm_num, by decide⟩
  · exact ⟨by decide, by decide⟩

/-- Claim C8, amended: for a GTI table whose intervals are nondegenerate
(`start < stop`), pairwise non-overlapping and ascending, and whose bounds
are already exact at 3 decimals, intersecting the table with itself and then
rounding to 3 decimals yields the same table. -/
theorem mergeGTI_round_self_amended {g : List (ℚ × ℚ)}
    (h1 : ∀ p ∈ g, p.1 < p.2)
    (h2 : List.Pairwise (fun p q : ℚ × ℚ => p.2 ≤ q.1) g)
    (h3 : ∀ p ∈ g, pyRound 3 p.1 = p.1 ∧ pyRound 3 p.2 = p.2) :
    roundGTI (mergeGTI g g) 3 = g := by
  rw [mergeGTI_self h1 h2]
  unfold roundGTI
  have : ∀ p ∈ g, (pyRound 3 p.1, pyRound 3 p.2) = p := fun p hp => by
    obtain ⟨e1, e2⟩ := h3 p hp
    rw [e1, e2]
  calc g.map (fun t => (pyRound 3 t.1, pyRound 3 t.2)) = g.map id := by
        exact List.map_congr_left this
    _ = g := List.map_id g

/-- Witness for `mergeGTI_round_self_amended` at a concrete table. -/
theorem mergeGTI_round_self_amended_witness :
    roundGTI (mergeGTI [((0:ℚ), 1), (2, 3)] [((0:ℚ), 1), (2, 3)]) 3 =
      [((0:ℚ), 1), (2, 3)] :=
  mergeGTI_round_self_amended (by decide) (by decide) (by decide)

/-! ### Maximal runs of good (non-excluded) samples

`goodRunsAux ex k st` scans the suffix `ex` of an excluded-flag list whose
first element has absolute index `k`; `st = some b` records that a run of
non-excluded elements is open and started at absolute index `b`.  It returns
the `[start-index, end-index]` pairs of the maximal runs of `false` values.
This is the statement-side description of the good-time runs; claim C4
relates it to the first-difference computation of
`TimelineFilter.recomputeExptime`. -/

def goodRunsAux : List Bool → ℕ → Option ℕ → List (ℕ × ℕ)
  | [], _, none => []
  | [], k, some b => [(b, k - 1)]
  | x :: rest, k, none =>
    if x then goodRunsAux rest (k + 1) none
    else goodRunsAux rest (k + 1) (some k)
  | x :: rest, k, some b =>
    if x then (b, k - 1) :: goodRunsAux rest (k + 1) none
    else goodRunsAux rest (k + 1) (some b)

def goodRuns (ex : List Bool) : List (ℕ × ℕ) := goodRunsAux ex 0 none

/-- `p` is a maximal run of `false` (non-excluded) entries of `ex`:
all indices in `[p.1, p.2]` are good, the entry before `p.1` (if any) is
excluded, and the entry after `p.2` is excluded unless the run reaches the
end of the list. -/
def IsMaxRun (ex : List Bool) (p : ℕ × ℕ) : Prop :=
  p.1 ≤ p.2 ∧ p.2 < ex.length ∧
  (∀ i ≤ p.2, p.1 ≤ i → ex.getD i true = false) ∧
  (p.1 = 0 ∨ ex.getD (p.1 - 1) true = true) ∧
  (p.2 = ex.length - 1 ∨ ex.getD (p.2 + 1) true = true)

instance (ex : List Bool) (p : ℕ × ℕ) : Decidable (IsMaxRun ex p) := by
  unfold IsMaxRun
  infer_instance

/-- Invariant carried by the scanner state. -/
def StInv (ex : List Bool) (k : ℕ) : Option ℕ → Prop
  | some b => b < k ∧ (∀ i, b ≤ i → i < k → ex.getD i true = false) ∧
      (b = 0 ∨ ex.getD (b - 1) true = true)
  | none => k = 0 ∨ ex.getD (k - 1) true = true

/-- Lower bound on run starts reachable from a scanner state. -/
def StLB (k : ℕ) : Option ℕ → ℕ × ℕ → Prop
  | some b, p => p.1 = b ∨ k < p.1
  | none, p => k ≤ p.1


lemma mem_goodRunsAux {ex : List Bool} :
    ∀ (l : List Bool) (k : ℕ) (st : Option ℕ),
      l = List.drop k ex → StInv ex k st →
      ∀ p : ℕ × ℕ, (p ∈ goodRunsAux l k st ↔ IsMaxRun ex p ∧ StLB k st p) := by
  intro l
  induction l with
  | nil =>
    intro k st hl hinv p
    have hlen : ex.length ≤ k := List.drop_eq_nil_iff.mp hl.symm
    cases st with
    | none =>
      simp only [goodRunsAux, List.not_mem_nil, false_iff, not_and]
      intro hmr
      obtain ⟨h1, h2, _, _, _⟩ := hmr
      simp only [StLB]
      omega
    | some b =>
      obtain ⟨hb, hgood, hbd⟩ := hinv
      have hkeq : k = ex.length := by
        rcases Nat.lt_or_ge (ex.length) k with hlt | hge
        · exfalso
          have h1 : ex.getD (k - 1) true = false := hgood (k - 1) (by omega) (by omega)
          have h2 : ex.getD (k - 1) true = true :=
            List.getD_eq_default _ _ (by omega)
          rw [h1] at h2
          exact Bool.false_ne_true h2
        · omega
      simp only [goodRunsAux, List.mem_singleton, StLB]
      constructor
      · rintro rfl
        refine ⟨⟨by omega, by omega, ?_, hbd, Or.inl (by omega)⟩, Or.inl rfl⟩
        intro i hi1 hi2
        exact hgood i hi2 (by omega)
      · rintro ⟨⟨h1, h2, h3, h4, h5⟩, hlb⟩
        have hp1 : p.1 = b := by
          rcases hlb with h | h
          · exact h
          · omega
        have hp2 : p.2 = k - 1 := by
          rcases Nat.lt_or_ge p.2 (k - 1) with hlt | hge
          · exfalso
            rcases h5 with h5 | h5
            · omega
            · have := hgood (p.2 + 1) (by omega) (by omega)
              rw [this] at h5
              exact Bool.false_ne_true h5
          · omega
        have hpp : p = (p.1, p.2) := rfl
        rw [hpp, hp1, hp2]
  | cons x rest ih =>
    intro k st hl hinv p
    have hk : k < ex.length := by
      by_contra hge
      push_neg at hge
      have hnil : List.drop k ex = [] := List.drop_eq_nil_iff.mpr hge
      rw [hnil] at hl
      simp at hl
    have hcons : x :: rest = ex.get ⟨k, hk⟩ :: List.drop (k + 1) ex := by
      rw [hl]
      have hdg := List.drop_eq_getElem_cons hk
      simp only [List.get_eq_getElem]
      exact hdg
    have hx2 : x = ex.get ⟨k, hk⟩ := by injection hcons
    have hrest : rest = List.drop (k + 1) ex := by injection hcons
    have hx : ex.getD k true = x := by
      rw [List.getD_eq_getElem?_getD, List.getElem?_eq_getElem hk]
      exact hx2.symm
    cases st with
    | none =>
      cases x with
      | true =>
        have estep : goodRunsAux (true :: rest) k none = goodRunsAux rest (k + 1) none := rfl
        rw [estep, ih (k + 1) none hrest (Or.inr (by simp only [Nat.add_sub_cancel]; exact hx))]
        simp only [StLB]
        constructor
        · rintro ⟨hmr, hlb⟩
          exact ⟨hmr, by omega⟩
        · rintro ⟨hmr, hlb⟩
          refine ⟨hmr, ?_⟩
          obtain ⟨h1, h2, h3, h4, h5⟩ := hmr
          rcases Nat.eq_or_lt_of_le hlb with heq | hlt
          · exfalso
            have hgd := h3 p.1 h1 (le_refl p.1)
            rw [← heq, hx] at hgd
            exact Bool.false_ne_true hgd.symm
          · omega
      | false =>
        have estep : goodRunsAux (false :: rest) k none = goodRunsAux rest (k + 1) (some k) := rfl
        rw [estep, ih (k + 1) (some k) hrest
          ⟨by omega, fun i hi1 hi2 => by
            have hik : i = k := by omega
            rw [hik]; exact hx, hinv⟩]
        simp only [StLB]
        constructor
        · rintro ⟨hmr, hlb⟩
          exact ⟨hmr, by omega⟩
        · rintro ⟨hmr, hlb⟩
          refine ⟨hmr, ?_⟩
          obtain ⟨h1, h2, h3, h4, h5⟩ := hmr
          rcases Nat.eq_or_lt_of_le hlb with heq | hlt
          · exact Or.inl heq.symm
          · rcases Nat.eq_or_lt_of_le hlt with heq2 | hlt2
            · exfalso
              rcases h4 with h4 | h4
              · omega
              · have hp1 : p.1 - 1 = k := by omega
                rw [hp1, hx] at h4
                exact Bool.false_ne_true h4
            · exact Or.inr (by omega)
    | some b =>
      obtain ⟨hb, hgood, hbd⟩ := hinv
      cases x with
      | true =>
        have estep : goodRunsAux (true :: rest) k (some b) =
            (b, k - 1) :: goodRunsAux rest (k + 1) none := rfl
        rw [estep]
        simp only [List.mem_cons]
        rw [ih (k + 1) none hrest (Or.inr (by simp only [Nat.add_sub_cancel]; exact hx))]
        simp only [StLB]
        constructor
        · rintro (rfl | ⟨hmr, hlb⟩)
          · refine ⟨⟨by omega, by omega, ?_, hbd, Or.inr ?_⟩, Or.inl rfl⟩
            · intro i hi1 hi2
              exact hgood i hi2 (by omega)
            · have hsub : k - 1 + 1 = k := by omega
              rw [hsub]
              exact hx
          · exact ⟨hmr, Or.inr (by omega)⟩
        · rintro ⟨hmr, hlb⟩
          obtain ⟨h1, h2, h3, h4, h5⟩ := hmr
          rcases hlb with hp1 | hlt
          · left
            have hp2 : p.2 = k - 1 := by
              rcases Nat.lt_or_ge p.2 k with hlt2 | hge2
              · rcases Nat.lt_or_ge p.2 (k - 1) with hlt3 | hge3
                · exfalso
                  rcases h5 with h5 | h5
                  · omega
                  · have := hgood (p.2 + 1) (by omega) (by omega)
                    rw [this] at h5
                    exact Bool.false_ne_true h5
                · omega
              · exfalso
                have hgd := h3 k hge2 (by omega)
                rw [hx] at hgd
                exact Bool.false_ne_true hgd.symm
            have hpp : p = (p.1, p.2) := rfl
            rw [hpp, hp1, hp2]
          · right
            exact ⟨⟨h1, h2, h3, h4, h5⟩, by omega⟩
      | false =>
        have estep : goodRunsAux (false :: rest) k (some b) =
            goodRunsAux rest (k + 1) (some b) := rfl
        rw [estep, ih (k + 1) (some b) hrest
          ⟨by omega, fun i hi1 hi2 => by
            rcases Nat.lt_or_ge i k with hik | hik
            · exact hgood i hi1 hik
            · have hik2 : i = k := by omega
              rw [hik2]; exact hx, hbd⟩]
        simp only [StLB]
        constructor
        · rintro ⟨hmr, hlb⟩
          rcases hlb with hp1 | hlt
          · exact ⟨hmr, Or.inl hp1⟩
          · exact ⟨hmr, Or.inr (by omega)⟩
        · rintro ⟨hmr, hlb⟩
          obtain ⟨h1, h2, h3, h4, h5⟩ := hmr
          rcases hlb with hp1 | hlt
          · exact ⟨⟨h1, h2, h3, h4, h5⟩, Or.inl hp1⟩
          · refine ⟨⟨h1, h2, h3, h4, h5⟩, ?_⟩
            rcases Nat.eq_or_lt_of_le hlt with heq | hlt2
            · exfalso
              rcases h4 with h4 | h4
              · omega
              · have hp1' : p.1 - 1 = k := by omega
                rw [hp1', hx] at h4
                exact Bool.false_ne_true h4
            · exact Or.inr (by omega)

/-- Membership in `goodRuns` is exactly being a maximal good run. -/
lemma mem_goodRuns {ex : List Bool} (p : ℕ × ℕ) :
    p ∈ goodRuns ex ↔ IsMaxRun ex p := by
  rw [goodRuns, mem_goodRunsAux ex 0 none (List.drop_zero ex).symm (Or.inl rfl) p]
  simp only [StLB]
  constructor
  · exact fun h => h.1
  · exact fun h => ⟨h, Nat.zero_le p.1⟩

/-- Bound on the start index of any run produced from a scanner state. -/
def stBound (k : ℕ) : Option ℕ → ℕ
  | some b => b
  | none => k

lemma goodRunsAux_lb :
    ∀ (l : List Bool) (k : ℕ) (st : Option ℕ),
      (∀ b, st = some b → b ≤ k) →
      ∀ p ∈ goodRunsAux l k st, stBound k st ≤ p.1 := by
  intro l
  induction l with
  | nil =>
    intro k st hst p hp
    cases st with
    | none => simp [goodRunsAux] at hp
    | some b =>
      simp only [goodRunsAux, List.mem_singleton] at hp
      rw [hp]
      exact le_refl b
  | cons x rest ih =>
    intro k st hst p hp
    cases st with
    | none =>
      simp only [stBound]
      cases x with
      | true =>
        have estep : goodRunsAux (true :: rest) k none = goodRunsAux rest (k + 1) none := rfl
        rw [estep] at hp
        have := ih (k + 1) none (by intro b hb; cases hb) p hp
        simp only [stBound] at this
        omega
      | false =>
        have estep : goodRunsAux (false :: rest) k none =
            goodRunsAux rest (k + 1) (some k) := rfl
        rw [estep] at hp
        have := ih (k + 1) (some k) (by intro b hb; injection hb with h; omega) p hp
        simpa [stBound] using this
    | some b =>
      have hbk : b ≤ k := hst b rfl
      simp only [stBound]
      cases x with
      | true =>
        have estep : goodRunsAux (true :: rest) k (some b) =
            (b, k - 1) :: goodRunsAux rest (k + 1) none := rfl
        rw [estep] at hp
        rcases List.mem_cons.mp hp with rfl | hp'
        · exact le_refl b
        · have := ih (k + 1) none (by intro b' hb'; cases hb') p hp'
          simp only [stBound] at this
          omega
      | false =>
        have estep : goodRunsAux (false :: rest) k (some b) =
            goodRunsAux rest (k + 1) (some b) := rfl
        rw [estep] at hp
        have := ih (k + 1) (some b) (by intro b' hb'; injection hb' with h; omega) p hp
        simpa [stBound] using this

lemma goodRunsAux_pairwise :
    ∀ (l : List Bool) (k : ℕ) (st : Option ℕ),
      List.Pairwise (fun p q : ℕ × ℕ => p.2 < q.1) (goodRunsAux l k st) := by
  intro l
  induction l with
  | nil =>
    intro k st
    cases st with
    | none => simp [goodRunsAux]
    | some b => simp [goodRunsAux]
  | cons x rest ih =>
    intro k st
    cases st with
    | none =>
      cases x with
      | true => exact ih (k + 1) none
      | false => exact ih (k + 1) (some k)
    | some b =>
      cases x with
      | true =>
        have estep : goodRunsAux (true :: rest) k (some b) =
            (b, k - 1) :: goodRunsAux rest (k + 1) none := rfl
        rw [estep]
        refine List.pairwise_cons.mpr ⟨?_, ih (k + 1) none⟩
        intro q hq
        have := goodRunsAux_lb rest (k + 1) none (by intro b' hb'; cases hb') q hq
        simp only [stBound] at this
        omega
      | false => exact ih (k + 1) (some b)

/-- Left closure predicate: index `i` can start a run of good entries. -/
def runStartP (ex : List Bool) (i : ℕ) : Prop :=
  i = 0 ∨ ex.getD (i - 1) true = true

/-- Right closure predicate for an index of a good run containing `m`. -/
def runEndQ (ex : List Bool) (m n : ℕ) : Prop :=
  m ≤ n ∧ (n + 1 = ex.length ∨ ex.getD (n + 1) true = true)

instance (ex : List Bool) : DecidablePred (runStartP ex) := fun i => by
  unfold runStartP
  infer_instance

instance (ex : List Bool) (m : ℕ) : DecidablePred (runEndQ ex m) := fun n => by
  unfold runEndQ
  infer_instance

/-- Every good index is inside some maximal good run. -/
lemma goodRuns_cover {ex : List Bool} (m : ℕ) (hm : m < ex.length)
    (hgood : ex.getD m true = false) :
    ∃ p ∈ goodRuns ex, p.1 ≤ m ∧ m ≤ p.2 := by
  have hP0 : runStartP ex 0 := Or.inl rfl
  have hPb : runStartP ex (Nat.findGreatest (runStartP ex) m) :=
    Nat.findGreatest_spec (Nat.zero_le m) hP0
  have hble : Nat.findGreatest (runStartP ex) m ≤ m := Nat.findGreatest_le m
  have hgoodb : ∀ j, Nat.findGreatest (runStartP ex) m ≤ j → j ≤ m →
      ex.getD j true = false := by
    intro j hj1 hj2
    rcases Nat.eq_or_lt_of_le hj2 with heq | hlt
    · rwa [heq]
    · have hnp := Nat.findGreatest_is_greatest
        (show Nat.findGreatest (runStartP ex) m < j + 1 by omega)
        (show j + 1 ≤ m by omega)
      unfold runStartP at hnp
      push_neg at hnp
      have hne : ex.getD (j + 1 - 1) true ≠ true := hnp.2
      simp only [Nat.add_sub_cancel] at hne
      rcases Bool.eq_false_or_eq_true (ex.getD j true) with h | h
      · exact absurd h hne
      · exact h
  have hQex : ∃ n, runEndQ ex m n :=
    ⟨ex.length - 1, by unfold runEndQ; omega⟩
  have hQ : runEndQ ex m (Nat.find hQex) := Nat.find_spec hQex
  have hele : Nat.find hQex ≤ ex.length - 1 :=
    Nat.find_min' hQex (by unfold runEndQ; omega)
  have hgoode : ∀ j, m < j → j ≤ Nat.find hQex → ex.getD j true = false := by
    intro j hj1 hj2
    have hnq := Nat.find_min hQex (show j - 1 < Nat.find hQex by omega)
    unfold runEndQ at hnq
    push_neg at hnq
    have hor := hnq (by omega)
    have hsub : j - 1 + 1 = j := by omega
    rw [hsub] at hor
    rcases Bool.eq_false_or_eq_true (ex.getD j true) with h | h
    · exact absurd h hor.2
    · exact h
  obtain ⟨hme, hclose⟩ := hQ
  refine ⟨(Nat.findGreatest (runStartP ex) m, Nat.find hQex), ?_, hble, hme⟩
  rw [mem_goodRuns]
  refine ⟨by omega, by omega, ?_, hPb, ?_⟩
  · intro i hi1 hi2
    rcases le_or_lt i m with him | him
    · exact hgoodb i hi2 him
    · exact hgoode i him hi1
  · rcases hclose with h | h
    · exact Or.inl (by omega)
    · exact Or.inr h

/-! ### `TimelineFilter.setDqFlag` interval extraction (timefilter.py 765-789)

The loop scans the evaluated bad mask `flag` over the TIMELINE `time` column.
A `True` entry opens a bad interval at `time_col[ki]`; the first `False`
entry after it closes the interval at `time_col[kj]`; a run still open at the
end of the grid is closed at the last EVENTS timestamp (`tlast`). -/

def badTimeIntervalsAux (time_col : ℕ → ℚ) (tlast : ℚ) :
    List Bool → ℕ → Option ℕ → List (ℚ × ℚ)
  | [], _, none => []
  | [], _, some ki => [(time_col ki, tlast)]
  | b :: rest, k, none =>
    if b then badTimeIntervalsAux time_col tlast rest (k + 1) (some k)
    else badTimeIntervalsAux time_col tlast rest (k + 1) none
  | b :: rest, k, some ki =>
    if b then badTimeIntervalsAux time_col tlast rest (k + 1) (some ki)
    else (time_col ki, time_col k) :: badTimeIntervalsAux time_col tlast rest (k + 1) none

def badTimeIntervals (time_col : ℕ → ℚ) (tlast : ℚ) (flag : List Bool) : List (ℚ × ℚ) :=
  badTimeIntervalsAux time_col tlast flag 0 none

lemma badTimeIntervalsAux_eq_runs (tc : ℕ → ℚ) (tlast : ℚ) :
    ∀ (flag : List Bool) (k : ℕ) (st : Option ℕ) (n : ℕ),
      n = k + flag.length → (∀ ki, st = some ki → ki < k) →
      badTimeIntervalsAux tc tlast flag k st =
        (goodRunsAux (flag.map (fun b => !b)) k st).map
          (fun p => (tc p.1, if p.2 + 1 = n then tlast else tc (p.2 + 1))) := by
  intro flag
  induction flag with
  | nil =>
    intro k st n hn hst
    cases st with
    | none => rfl
    | some ki =>
      have hki : ki < k := hst ki rfl
      have e1 : badTimeIntervalsAux tc tlast [] k (some ki) = [(tc ki, tlast)] := rfl
      have e2 : goodRunsAux (List.map (fun b => !b) []) k (some ki) = [(ki, k - 1)] := rfl
      rw [e1, e2]
      simp only [List.map_cons, List.map_nil]
      have hcond : ki < k ∧ k - 1 + 1 = n := by
        simp only [List.length_nil] at hn
        omega
      rw [if_pos hcond.2]
  | cons b rest ih =>
    intro k st n hn hst
    have hn' : n = (k + 1) + rest.length := by
      simp only [List.length_cons] at hn
      omega
    cases st with
    | none =>
      cases b with
      | true =>
        have e1 : badTimeIntervalsAux tc tlast (true :: rest) k none =
            badTimeIntervalsAux tc tlast rest (k + 1) (some k) := rfl
        have e2 : goodRunsAux (List.map (fun b => !b) (true :: rest)) k none =
            goodRunsAux (List.map (fun b => !b) rest) (k + 1) (some k) := rfl
        rw [e1, e2, ih (k + 1) (some k) n hn' (by intro ki h; injection h with h; omega)]
      | false =>
        have e1 : badTimeIntervalsAux tc tlast (false :: rest) k none =
            badTimeIntervalsAux tc tlast rest (k + 1) none := rfl
        have e2 : goodRunsAux (List.map (fun b => !b) (false :: rest)) k none =
            goodRunsAux (List.map (fun b => !b) rest) (k + 1) none := rfl
        rw [e1, e2, ih (k + 1) none n hn' (by intro ki h; cases h)]
    | some ki =>
      have hki : ki < k := hst ki rfl
      cases b with
      | true =>
        have e1 : badTimeIntervalsAux tc tlast (true :: rest) k (some ki) =
            badTimeIntervalsAux tc tlast rest (k + 1) (some ki) := rfl
        have e2 : goodRunsAux (List.map (fun b => !b) (true :: rest)) k (some ki) =
            goodRunsAux (List.map (fun b => !b) rest) (k + 1) (some ki) := rfl
        rw [e1, e2, ih (k + 1) (some ki) n hn' (by intro ki' h; injection h with h; omega)]
      | false =>
        have e1 : badTimeIntervalsAux tc tlast (false :: rest) k (some ki) =
            (tc ki, tc k) :: badTimeIntervalsAux tc tlast rest (k + 1) none := rfl
        have e2 : goodRunsAux (List.map (fun b => !b) (false :: rest)) k (some ki) =
            (ki, k - 1) :: goodRunsAux (List.map (fun b => !b) rest) (k + 1) none := rfl
        rw [e1, e2, List.map_cons, ih (k + 1) none n hn' (by intro ki' h; cases h)]
        have hsub : k - 1 + 1 = k := by omega
        have hne : ¬(k - 1 + 1 = n) := by
          simp only [List.length_cons] at hn
          omega
        rw [if_neg hne, hsub]

lemma badTimeIntervals_eq_runs (tc : ℕ → ℚ) (tlast : ℚ) (flag : List Bool) :
    badTimeIntervals tc tlast flag =
      (goodRuns (flag.map (fun b => !b))).map
        (fun p => (tc p.1, if p.2 + 1 = flag.length then tlast else tc (p.2 + 1))) :=
  badTimeIntervalsAux_eq_runs tc tlast flag 0 none flag.length (by omega)
    (by intro ki h; cases h)

lemma exflag_getD {flag : List Bool} {m : ℕ} (hm : m < flag.length) :
    (flag.map (fun b => !b)).getD m true = !(flag.getD m false) := by
  have h1 : flag[m]? = some (flag.get ⟨m, hm⟩) := List.getElem?_eq_getElem hm
  rw [List.getD_eq_getElem?_getD, List.getD_eq_getElem?_getD, List.getElem?_map, h1]
  rfl

/-- Claim C2: over an ascending telemetry grid whose times all precede the
event stream's final timestamp, the extracted bad-time intervals are exactly
one interval `[t_begin, t_end)` per maximal run of `True` mask values
(`t_begin` the run's first sample time, `t_end` the time of the first `False`
sample after the run, or the final event timestamp when the run reaches the
end of the grid); the intervals are nonempty, pairwise disjoint and
ascending, and the telemetry samples they cover are exactly those where the
mask is `True`. -/
theorem badTimeIntervals_runs_disjoint_cover
    (tc : ℕ → ℚ) (tlast : ℚ) (flag : List Bool)
    (hmono : StrictMono tc) (hlast : ∀ i < flag.length, tc i < tlast) :
    badTimeIntervals tc tlast flag =
      (goodRuns (flag.map (fun b => !b))).map
        (fun p => (tc p.1, if p.2 + 1 = flag.length then tlast else tc (p.2 + 1))) ∧
    (∀ p ∈ badTimeIntervals tc tlast flag, p.1 < p.2) ∧
    List.Pairwise (fun p q : ℚ × ℚ => p.2 ≤ q.1) (badTimeIntervals tc tlast flag) ∧
    (∀ m < flag.length,
      ((∃ p ∈ badTimeIntervals tc tlast flag, p.1 ≤ tc m ∧ tc m < p.2) ↔
        flag.getD m false = true)) := by
  have hlen : (flag.map (fun b => !b)).length = flag.length := List.length_map flag _
  refine ⟨badTimeIntervals_eq_runs tc tlast flag, ?_, ?_, ?_⟩
  · -- each interval is nonempty
    intro p hp
    rw [badTimeIntervals_eq_runs] at hp
    obtain ⟨q, hq, rfl⟩ := List.mem_map.mp hp
    obtain ⟨h1, h2, _, _, _⟩ := (mem_goodRuns q).mp hq
    by_cases hend : q.2 + 1 = flag.length
    · simp only [if_pos hend]
      exact hlast q.1 (by omega)
    · simp only [if_neg hend]
      exact hmono (by omega)
  · -- pairwise disjoint and ascending
    rw [badTimeIntervals_eq_runs]
    rw [List.pairwise_map]
    have hpw : List.Pairwise (fun p q : ℕ × ℕ => p.2 < q.1)
        (goodRuns (flag.map (fun b => !b))) :=
      goodRunsAux_pairwise _ 0 none
    refine hpw.imp_of_mem ?_
    intro a b ha hb hr
    obtain ⟨ha1, ha2, _, _, _⟩ := (mem_goodRuns a).mp ha
    obtain ⟨hb1, hb2, _, _, _⟩ := (mem_goodRuns b).mp hb
    by_cases hend : a.2 + 1 = flag.length
    · exfalso
      omega
    · simp only [if_neg hend]
      exact (hmono.le_iff_le).mpr (by omega)
  · -- covered samples are exactly the bad samples
    intro m hm
    constructor
    · rintro ⟨p, hp, hle, hlt⟩
      rw [badTimeIntervals_eq_runs] at hp
      obtain ⟨q, hq, rfl⟩ := List.mem_map.mp hp
      obtain ⟨h1, h2, h3, _, _⟩ := (mem_goodRuns q).mp hq
      have hq1m : q.1 ≤ m := (hmono.le_iff_le).mp hle
      have hmq2 : m ≤ q.2 := by
        by_cases hend : q.2 + 1 = flag.length
        · omega
        · simp only [if_neg hend] at hlt
          have := (hmono.lt_iff_lt).mp hlt
          omega
      have hgd := h3 m hmq2 hq1m
      rw [exflag_getD hm] at hgd
      rcases Bool.eq_false_or_eq_true (flag.getD m false) with h | h
      · exact h
      · rw [h] at hgd
        exact absurd hgd (by simp)
    · intro hbad
      have hgd : (flag.map (fun b => !b)).getD m true = false := by
        rw [exflag_getD hm, hbad]
        rfl
      obtain ⟨q, hq, hq1, hq2⟩ := goodRuns_cover m (by omega) hgd
      obtain ⟨h1, h2, _, _, _⟩ := (mem_goodRuns q).mp hq
      refine ⟨(tc q.1, if q.2 + 1 = flag.length then tlast else tc (q.2 + 1)), ?_, ?_, ?_⟩
      · rw [badTimeIntervals_eq_runs]
        exact List.mem_map_of_mem _ hq
      · exact (hmono.le_iff_le).mpr hq1
      · by_cases hend : q.2 + 1 = flag.length
        · simp only [if_pos hend]
          exact hlast m hm
        · simp only [if_neg hend]
          exact hmono (by omega)

/-- Witness for `badTimeIntervals_runs_disjoint_cover`: the spec's concrete
scenario, mask `[T,F,F,F,T,T]` over times `0..5` with final event time `6`. -/
theorem badTimeIntervals_runs_disjoint_cover_witness :
    badTimeIntervals (fun k => (k : ℚ)) 6 [true, false, false, false, true, true] =
      (goodRuns ([true, false, false, false, true, true].map (fun b => !b))).map
        (fun p => ((p.1 : ℚ),
          if p.2 + 1 = 6 then (6 : ℚ) else ((p.2 + 1 : ℕ) : ℚ))) ∧
    (∀ p ∈ badTimeIntervals (fun k => (k : ℚ)) 6 [true, false, false, false, true, true],
      p.1 < p.2) ∧
    List.Pairwise (fun p q : ℚ × ℚ => p.2 ≤ q.1)
      (badTimeIntervals (fun k => (k : ℚ)) 6 [true, false, false, false, true, true]) ∧
    (∀ m : ℕ, m < 6 →
      ((∃ p ∈ badTimeIntervals (fun k => (k : ℚ)) 6 [true, false, false, false, true, true],
        p.1 ≤ (m : ℚ) ∧ (m : ℚ) < p.2) ↔
        [true, false, false, false, true, true].getD m false = true)) := by
  have hmono : StrictMono (fun k : ℕ => (k : ℚ)) := by
    intro a b h
    simpa using h
  have hlast : ∀ i < ([true, false, false, false, true, true] : List Bool).length,
      ((i : ℚ)) < 6 := by
    intro i hi
    simp only [List.length_cons, List.length_nil] at hi
    exact_mod_cast hi
  have h := badTimeIntervals_runs_disjoint_cover (fun k => (k : ℚ)) 6
    [true, false, false, false, true, true] hmono hlast
  simpa using h

/-! ### `TimelineFilter.recomputeExptime` (timefilter.py lines 907-999)

The good-time runs are recovered from the DQ column: build a per-event
excluded flag (bad-time bit OR burst bit), cast it to small integers, take
the first difference, and walk the nonzero differences; `+1` closes a good
run, `-1` opens one at the next index; the two boundary cases are the stream
starting good (`iflag[0] == 0`) and a good run still open at the end, closed
at index `nevents - 1`. -/

/-- Per-event excluded flag: bad-time bit or burst bit set in DQ. -/
def excludedFlag (dq : List ℕ) : List Bool :=
  dq.map (fun d => decide (0 < d &&& DQ_BAD_TIME) || decide (0 < d &&& DQ_BURST))

/-- The indicator cast of an excluded-flag list (`np.where(flag, one, zero)`). -/
def iflagOfEx (ex : List Bool) : List ℤ :=
  ex.map (fun b => if b then 1 else 0)

/-- `iflag` as computed from the DQ column. -/
def iflagOf (dq : List ℕ) : List ℤ := iflagOfEx (excludedFlag dq)

/-- First difference `dflag = iflag[1:] - iflag[0:-1]`. -/
def dflagOf (iflag : List ℤ) : List ℤ :=
  List.zipWith (fun a b => a - b) iflag.tail iflag

/-- The nonzero entries of `dflag` with their indices
(`non_zero = np.where(dflag != 0)` and the values `dflag[nz[i]]`). -/
def changesOf (iflag : List ℤ) : List (ℕ × ℤ) :=
  (dflagOf iflag).enum.filter (fun p => p.2 != 0)

/-- The loop over the nonzero first differences.  `b` is `it_begin`, `e` is
`it_end`.  A positive difference closes a good run `[it_begin, j]`; a
negative one opens a run at `j + 1`; the final run, still open when `it_end`
is `None` and `it_begin` is not, is closed at `nevents - 1`.  (When `b` is
`None` at a positive difference — impossible for a 0/1 `iflag` — no run is
recorded.) -/
def gtiIndicesAux (nevents : ℕ) : List (ℕ × ℤ) → Option ℕ → Option ℕ → List (ℕ × ℕ)
  | [], b, e =>
    match e, b with
    | none, some bb => [(bb, nevents - 1)]
    | _, _ => []
  | (j, d) :: rest, b, e =>
    if 0 < d then
      match b with
      | some bb => (bb, j) :: gtiIndicesAux nevents rest b (some j)
      | none => gtiIndicesAux nevents rest b (some j)
    else if d < 0 then gtiIndicesAux nevents rest (some (j + 1)) none
    else gtiIndicesAux nevents rest b e

/-- `gti_indices` of `recomputeExptime` (empty events would fail in the
source when reading `iflag[0]`; modelled as the empty list). -/
def gtiIndices (dq : List ℕ) : List (ℕ × ℕ) :=
  match excludedFlag dq with
  | [] => []
  | x :: _ =>
    gtiIndicesAux dq.length (changesOf (iflagOf dq)) (if x then none else some 0) none

/-- Translation of the good runs to event timestamps (the derived GTI). -/
def derivedGTI (events_time : ℕ → ℚ) (dq : List ℕ) : List (ℚ × ℚ) :=
  (gtiIndices dq).map (fun p => (events_time p.1, events_time p.2))

/-- The flip list of an excluded-flag list: positions where consecutive
entries differ, with the indicator difference. -/
def flipsFrom : ℕ → List Bool → List (ℕ × ℤ)
  | _, [] => []
  | _, [_] => []
  | k, a :: x :: rest =>
    (if a = x then []
     else [(k, (if x then (1:ℤ) else 0) - (if a then (1:ℤ) else 0))]) ++
      flipsFrom (k + 1) (x :: rest)

lemma enumFrom_dflag_filter (ex : List Bool) :
    ∀ k : ℕ, ((dflagOf (iflagOfEx ex)).enumFrom k).filter (fun p => p.2 != 0) =
      flipsFrom k ex := by
  induction ex with
  | nil => intro k; rfl
  | cons a rest ih =>
    intro k
    cases rest with
    | nil => rfl
    | cons x rest2 =>
      have estep : dflagOf (iflagOfEx (a :: x :: rest2)) =
          ((if x then (1:ℤ) else 0) - (if a then (1:ℤ) else 0)) ::
            dflagOf (iflagOfEx (x :: rest2)) := rfl
      rw [estep]
      have henum : (((if x then (1:ℤ) else 0) - (if a then (1:ℤ) else 0)) ::
          dflagOf (iflagOfEx (x :: rest2))).enumFrom k =
          (k, (if x then (1:ℤ) else 0) - (if a then (1:ℤ) else 0)) ::
            (dflagOf (iflagOfEx (x :: rest2))).enumFrom (k + 1) := rfl
      rw [henum, List.filter_cons]
      cases a <;> cases x <;>
        simp [flipsFrom, ih (k + 1)]

lemma changesOf_eq_flips (ex : List Bool) :
    changesOf (iflagOfEx ex) = flipsFrom 0 ex := by
  rw [changesOf, List.enum_eq_enumFrom, enumFrom_dflag_filter ex 0]

lemma gtiIndicesAux_flips (nev : ℕ) :
    ∀ (rest : List Bool) (k : ℕ) (a : Bool) (b e : Option ℕ) (s : Option ℕ),
      k + 1 + rest.length = nev →
      (a = true → s = none ∧ ((b = none ∧ e = none) ∨ ∃ j, e = some j)) →
      (a = false → e = none ∧ ∃ bb, b = some bb ∧ s = some bb) →
      gtiIndicesAux nev (flipsFrom k (a :: rest)) b e = goodRunsAux rest (k + 1) s := by
  intro rest
  induction rest with
  | nil =>
    intro k a b e s hn ht hf
    cases a with
    | true =>
      obtain ⟨rfl, hbe⟩ := ht rfl
      rcases hbe with ⟨rfl, rfl⟩ | ⟨j, rfl⟩
      · rfl
      · rfl
    | false =>
      obtain ⟨rfl, bb, rfl, rfl⟩ := hf rfl
      have e1 : flipsFrom k [false] = [] := rfl
      rw [e1]
      have e2 : gtiIndicesAux nev [] (some bb) none = [(bb, nev - 1)] := rfl
      have e3 : goodRunsAux [] (k + 1) (some bb) = [(bb, k + 1 - 1)] := rfl
      rw [e2, e3]
      simp only [List.length_nil] at hn
      have : nev - 1 = k + 1 - 1 := by omega
      rw [this]
  | cons x rest2 ih =>
    intro k a b e s hn ht hf
    have hn' : k + 1 + 1 + rest2.length = nev := by
      simp only [List.length_cons] at hn
      omega
    cases a with
    | true =>
      obtain ⟨rfl, hbe⟩ := ht rfl
      cases x with
      | true =>
        have e1 : flipsFrom k (true :: true :: rest2) = flipsFrom (k + 1) (true :: rest2) := by
          simp [flipsFrom]
        have e2 : goodRunsAux (true :: rest2) (k + 1) none =
            goodRunsAux rest2 (k + 1 + 1) none := rfl
        rw [e1, e2]
        exact ih (k + 1) true b e none hn'
          (fun _ => ⟨rfl, hbe⟩) (fun hx => by cases hx)
      | false =>
        have e1 : flipsFrom k (true :: false :: rest2) =
            (k, (0:ℤ) - 1) :: flipsFrom (k + 1) (false :: rest2) := by
          simp [flipsFrom]
        rw [e1]
        have e2 : gtiIndicesAux nev ((k, (0:ℤ) - 1) :: flipsFrom (k + 1) (false :: rest2)) b e =
            gtiIndicesAux nev (flipsFrom (k + 1) (false :: rest2)) (some (k + 1)) none := by
          have hd1 : ¬(0 < (0:ℤ) - 1) := by norm_num
          have hd2 : (0:ℤ) - 1 < 0 := by norm_num
          simp only [gtiIndicesAux, if_neg hd1, if_pos hd2]
        have e3 : goodRunsAux (false :: rest2) (k + 1) none =
            goodRunsAux rest2 (k + 1 + 1) (some (k + 1)) := rfl
        rw [e2, e3]
        exact ih (k + 1) false (some (k + 1)) none (some (k + 1)) hn'
          (fun hx => by cases hx) (fun _ => ⟨rfl, k + 1, rfl, rfl⟩)
    | false =>
      obtain ⟨rfl, bb, rfl, rfl⟩ := hf rfl
      cases x with
      | false =>
        have e1 : flipsFrom k (false :: false :: rest2) =
            flipsFrom (k + 1) (false :: rest2) := by
          simp [flipsFrom]
        have e2 : goodRunsAux (false :: rest2) (k + 1) (some bb) =
            goodRunsAux rest2 (k + 1 + 1) (some bb) := rfl
        rw [e1, e2]
        exact ih (k + 1) false (some bb) none (some bb) hn'
          (fun hx => by cases hx) (fun _ => ⟨rfl, bb, rfl, rfl⟩)
      | true =>
        have e1 : flipsFrom k (false :: true :: rest2) =
            (k, (1:ℤ) - 0) :: flipsFrom (k + 1) (true :: rest2) := by
          simp [flipsFrom]
        rw [e1]
        have e2 : gtiIndicesAux nev ((k, (1:ℤ) - 0) :: flipsFrom (k + 1) (true :: rest2))
              (some bb) none =
            (bb, k) :: gtiIndicesAux nev (flipsFrom (k + 1) (true :: rest2))
              (some bb) (some k) := by
          have hd1 : 0 < (1:ℤ) - 0 := by norm_num
          simp only [gtiIndicesAux, if_pos hd1]
        have e3 : goodRunsAux (true :: rest2) (k + 1) (some bb) =
            (bb, k + 1 - 1) :: goodRunsAux rest2 (k + 1 + 1) none := rfl
        rw [e2, e3]
        have hsub : k + 1 - 1 = k := by omega
        rw [hsub]
        congr 1
        exact ih (k + 1) true (some bb) (some k) none hn'
          (fun _ => ⟨rfl, Or.inr ⟨k, rfl⟩⟩) (fun hx => by cases hx)

/-- The first-difference walk recovers exactly the scanner's good runs. -/
lemma gtiIndices_eq_goodRuns {dq : List ℕ} (h : dq ≠ []) :
    gtiIndices dq = goodRuns (excludedFlag dq) := by
  obtain ⟨d0, dqrest, rfl⟩ := List.exists_cons_of_ne_nil h
  have hex : excludedFlag (d0 :: dqrest) =
      (decide (0 < d0 &&& DQ_BAD_TIME) || decide (0 < d0 &&& DQ_BURST)) ::
        excludedFlag dqrest := rfl
  have hflips : changesOf (iflagOf (d0 :: dqrest)) =
      flipsFrom 0 ((decide (0 < d0 &&& DQ_BAD_TIME) || decide (0 < d0 &&& DQ_BURST)) ::
        excludedFlag dqrest) := by
    rw [iflagOf, hex]
    exact changesOf_eq_flips _
  have hnev : 0 + 1 + (excludedFlag dqrest).length = (d0 :: dqrest).length := by
    simp only [excludedFlag, List.length_map, List.length_cons]
    omega
  rw [gtiIndices, hex, hflips]
  cases hxv : (decide (0 < d0 &&& DQ_BAD_TIME) || decide (0 < d0 &&& DQ_BURST)) with
  | true =>
    show gtiIndicesAux (d0 :: dqrest).length
        (flipsFrom 0 (true :: excludedFlag dqrest)) none none =
      goodRuns (true :: excludedFlag dqrest)
    have hgr : goodRuns (true :: excludedFlag dqrest) =
        goodRunsAux (excludedFlag dqrest) 1 none := rfl
    rw [hgr]
    exact gtiIndicesAux_flips (d0 :: dqrest).length (excludedFlag dqrest) 0 true
      none none none hnev (fun _ => ⟨rfl, Or.inl ⟨rfl, rfl⟩⟩) (fun hc => by cases hc)
  | false =>
    show gtiIndicesAux (d0 :: dqrest).length
        (flipsFrom 0 (false :: excludedFlag dqrest)) (some 0) none =
      goodRuns (false :: excludedFlag dqrest)
    have hgr : goodRuns (false :: excludedFlag dqrest) =
        goodRunsAux (excludedFlag dqrest) 1 (some 0) := rfl
    rw [hgr]
    exact gtiIndicesAux_flips (d0 :: dqrest).length (excludedFlag dqrest) 0 false
      (some 0) none (some 0) hnev (fun hc => by cases hc) (fun _ => ⟨rfl, 0, rfl, rfl⟩)

/-- Claim C4: the recomputation's first-difference walk (excluded flag =
bad-time OR burst bit, cast, first difference, 0→1 closes a good run, 1→0
opens one, boundary cases handled) produces exactly the maximal runs of
events with neither bit set, and `derivedGTI` is their translation to event
timestamps. -/
theorem gtiIndices_maximal_runs (events_time : ℕ → ℚ) {dq : List ℕ} (h : dq ≠ []) :
    gtiIndices dq = goodRuns (excludedFlag dq) ∧
    (∀ p : ℕ × ℕ, p ∈ gtiIndices dq ↔ IsMaxRun (excludedFlag dq) p) ∧
    derivedGTI events_time dq =
      (goodRuns (excludedFlag dq)).map (fun p => (events_time p.1, events_time p.2)) := by
  refine ⟨gtiIndices_eq_goodRuns h, ?_, ?_⟩
  · intro p
    rw [gtiIndices_eq_goodRuns h]
    exact mem_goodRuns p
  · rw [derivedGTI, gtiIndices_eq_goodRuns h]

/-- Witness for `gtiIndices_maximal_runs` on a concrete DQ column:
events 0 and 3 are clean, event 1 has the bad-time bit, event 2 the burst
bit. -/
theorem gtiIndices_maximal_runs_witness :
    gtiIndices [0, 2048, 64, 0] = goodRuns (excludedFlag [0, 2048, 64, 0]) ∧
    (((0, 0) ∈ gtiIndices [0, 2048, 64, 0]) ↔
      IsMaxRun (excludedFlag [0, 2048, 64, 0]) (0, 0)) ∧
    gtiIndices [0, 2048, 64, 0] = [(0, 0), (3, 3)] := by
  have h := gtiIndices_maximal_runs (fun k => (k : ℚ)) (show [0, 2048, 64, 0] ≠ [] by decide)
  exact ⟨h.1, h.2.1 (0, 0), by decide⟩

/-- The final GTI of `recomputeExptime`: intersect the derived runs with the
original table, then round each bound to 3 decimals. -/
def recomputedGTI (first_gti : List (ℚ × ℚ)) (events_time : ℕ → ℚ)
    (dq : List ℕ) : List (ℚ × ℚ) :=
  roundGTI (mergeGTI first_gti (derivedGTI events_time dq)) 3

lemma mem_mergeGTI {g1 g2 : List (ℚ × ℚ)} {p : ℚ × ℚ} (hp : p ∈ mergeGTI g1 g2) :
    ∃ a ∈ g1, ∃ b ∈ g2, (a.1 < b.2 ∧ b.1 < a.2) ∧
      p = (max a.1 b.1, min a.2 b.2) := by
  rw [mergeGTI_eq_spec, specIntersect] at hp
  obtain ⟨a, ha, hp2⟩ := List.mem_flatMap.mp hp
  obtain ⟨b, hb, hfb⟩ := List.mem_filterMap.mp hp2
  by_cases hc : a.1 < b.2 ∧ b.1 < a.2
  · rw [if_pos hc] at hfb
    exact ⟨a, ha, b, hb, hc, (Option.some_injective _ hfb).symm⟩
  · rw [if_neg hc] at hfb
    cases hfb

lemma mem_specInner {g2 : List (ℚ × ℚ)} {a p : ℚ × ℚ}
    (hp : p ∈ g2.filterMap (fun b =>
      if a.1 < b.2 ∧ b.1 < a.2 then some (max a.1 b.1, min a.2 b.2) else none)) :
    a.1 ≤ p.1 ∧ p.2 ≤ a.2 := by
  obtain ⟨b, _, hfb⟩ := List.mem_filterMap.mp hp
  by_cases hc : a.1 < b.2 ∧ b.1 < a.2
  · rw [if_pos hc] at hfb
    obtain rfl := Option.some_injective _ hfb
    exact ⟨le_max_left _ _, min_le_left _ _⟩
  · rw [if_neg hc] at hfb
    cases hfb

lemma mergeGTI_ordered {g1 g2 : List (ℚ × ℚ)}
    (h1w : ∀ a ∈ g1, a.1 ≤ a.2) (h2w : ∀ b ∈ g2, b.1 ≤ b.2)
    (h1 : List.Pairwise (fun p q : ℚ × ℚ => p.2 ≤ q.1) g1)
    (h2 : List.Pairwise (fun p q : ℚ × ℚ => p.2 ≤ q.1) g2) :
    (∀ p ∈ mergeGTI g1 g2, p.1 ≤ p.2) ∧
    List.Pairwise (fun p q : ℚ × ℚ => p.2 ≤ q.1) (mergeGTI g1 g2) := by
  constructor
  · intro p hp
    obtain ⟨a, ha, b, hb, hc, rfl⟩ := mem_mergeGTI hp
    exact le_min (max_le (h1w a ha) (le_of_lt hc.2))
      (max_le (le_of_lt hc.1) (h2w b hb))
  · rw [mergeGTI_eq_spec, specIntersect]
    rw [List.pairwise_flatMap]
    constructor
    · intro a _
      refine List.Pairwise.filterMap _ ?_ h2
      intro b b' hbb p hpb p' hpb'
      rw [Option.mem_def] at hpb hpb'
      by_cases hcb : a.1 < b.2 ∧ b.1 < a.2
      · rw [if_pos hcb] at hpb
        obtain rfl := Option.some_injective _ hpb
        by_cases hcb' : a.1 < b'.2 ∧ b'.1 < a.2
        · rw [if_pos hcb'] at hpb'
          obtain rfl := Option.some_injective _ hpb'
          exact le_trans (min_le_right _ _) (le_trans hbb (le_max_right _ _))
        · rw [if_neg hcb'] at hpb'
          cases hpb'
      · rw [if_neg hcb] at hpb
        cases hpb
    · refine h1.imp ?_
      intro a a' haa p hpa q hqa
      have hb1 := mem_specInner hpa
      have hb2 := mem_specInner hqa
      exact le_trans hb1.2 (le_trans haa hb2.1)

lemma derivedGTI_wf (t : ℕ → ℚ) (dq : List ℕ) (hm : Monotone t) :
    (∀ b ∈ derivedGTI t dq, b.1 ≤ b.2) ∧
    List.Pairwise (fun p q : ℚ × ℚ => p.2 ≤ q.1) (derivedGTI t dq) := by
  by_cases h : dq = []
  · subst h
    constructor
    · intro b hb
      cases hb
    · exact List.Pairwise.nil
  · rw [derivedGTI, gtiIndices_eq_goodRuns h]
    constructor
    · intro b hb
      obtain ⟨q, hq, rfl⟩ := List.mem_map.mp hb
      obtain ⟨h1, _, _, _, _⟩ := (mem_goodRuns q).mp hq
      exact hm h1
    · rw [goodRuns]
      refine List.Pairwise.map _ ?_ (goodRunsAux_pairwise _ 0 none)
      intro a b hab
      exact hm (by omega)

/-- Claim C9: for an original GTI table satisfying the data-model invariant
and any event-stream DQ array, the recomputed GTI (edge-detected good runs,
intersected with the original table, bounds rounded to 3 decimals) again has
`stop ≥ start` in every interval and pairwise non-overlapping, ascending
intervals. -/
theorem recomputedGTI_invariant (first_gti : List (ℚ × ℚ)) (events_time : ℕ → ℚ)
    (dq : List ℕ)
    (hw : ∀ a ∈ first_gti, a.1 ≤ a.2)
    (hpw : List.Pairwise (fun p q : ℚ × ℚ => p.2 ≤ q.1) first_gti)
    (hmono : Monotone events_time) :
    (∀ p ∈ recomputedGTI first_gti events_time dq, p.1 ≤ p.2) ∧
    List.Pairwise (fun p q : ℚ × ℚ => p.2 ≤ q.1)
      (recomputedGTI first_gti events_time dq) := by
  obtain ⟨hdw, hdpw⟩ := derivedGTI_wf events_time dq hmono
  obtain ⟨hmw, hmpw⟩ := mergeGTI_ordered hw hdw hpw hdpw
  constructor
  · intro p hp
    rw [recomputedGTI, roundGTI] at hp
    obtain ⟨m, hm, rfl⟩ := List.mem_map.mp hp
    exact pyRound_mono 3 (hmw m hm)
  · rw [recomputedGTI, roundGTI]
    refine List.Pairwise.map _ ?_ hmpw
    intro a b hab
    exact pyRound_mono 3 hab

/-- Witness for `recomputedGTI_invariant` at a concrete original table and
DQ column. -/
theorem recomputedGTI_invariant_witness :
    (∀ p ∈ recomputedGTI [((0:ℚ), 100)] (fun k => (k : ℚ)) [0, 2048, 0], p.1 ≤ p.2) ∧
    List.Pairwise (fun p q : ℚ × ℚ => p.2 ≤ q.1)
      (recomputedGTI [((0:ℚ), 100)] (fun k => (k : ℚ)) [0, 2048, 0]) := by
  refine recomputedGTI_invariant [((0:ℚ), 100)] (fun k => (k : ℚ)) [0, 2048, 0]
    ?_ ?_ ?_
  · intro a ha
    rcases List.mem_singleton.mp ha with rfl
    norm_num
  · exact List.pairwise_singleton _ _
  · intro a b h
    simpa using h

/-! ### `TimelineFilter.interpretFilter` (timefilter.py lines 442-533)

Python strings are modelled as `List Char`; `lower()` as a character map,
`split()` as splitting on whitespace runs.  `int()` and `float()` acceptance
of a token is modelled by `pyInt?` and `pyFloat?` (decimal forms with
optional sign, decimal point and exponent; Python's underscore separators
and the special values `inf`/`nan` are not modelled). -/

inductive Conj
  | and
  | or
  | xor
deriving DecidableEq

inductive RelOp
  | gt
  | ge
  | lt
  | le
  | eq
  | ne
deriving DecidableEq

inductive CondTok
  | rel (colname : List Char) (r : RelOp) (cutoff : ℚ)
  | saa (model : ℤ)
deriving DecidableEq

inductive FilterToken
  | cond (c : CondTok)
  | conj (c : Conj)
deriving DecidableEq

def lowerL (l : List Char) : List Char := l.map Char.toLower

def wordsAux : List Char → List Char → List (List Char)
  | [], cur => if cur = [] then [] else [cur.reverse]
  | c :: rest, cur =>
    if c.isWhitespace then
      if cur = [] then wordsAux rest [] else cur.reverse :: wordsAux rest []
    else wordsAux rest (c :: cur)

/-- Python `str.split()` with no argument: split on whitespace runs. -/
def wordsOf (l : List Char) : List (List Char) := wordsAux l []

/-- Split off the leading run of ASCII digits. -/
def takeDigits : List Char → List Char × List Char
  | [] => ([], [])
  | c :: rest =>
    if c.isDigit then
      ((takeDigits rest).1.cons c, (takeDigits rest).2)
    else ([], c :: rest)

def digitsToNat (l : List Char) : ℕ :=
  l.foldl (fun acc c => acc * 10 + (c.toNat - 48)) 0

def pyIntAux (neg : Bool) (t : List Char) : Option ℤ :=
  if (takeDigits t).1 = [] then none
  else if (takeDigits t).2 = [] then
    some (if neg then -(digitsToNat (takeDigits t).1 : ℤ)
          else (digitsToNat (takeDigits t).1 : ℤ))
  else none

/-- Modelled from the spec: Python `int(token)` acceptance and value. -/
def pyInt? : List Char → Option ℤ
  | '-' :: rest => pyIntAux true rest
  | '+' :: rest => pyIntAux false rest
  | t => pyIntAux false t

def pyFloatExpDigits (n d : ℤ) (neg : Bool) (t : List Char) : Option (ℤ × ℤ) :=
  if (takeDigits t).1 = [] then none
  else if (takeDigits t).2 = [] then
    some (if neg then (n, d * 10 ^ digitsToNat (takeDigits t).1)
          else (n * 10 ^ digitsToNat (takeDigits t).1, d))
  else none

def pyFloatExp (n d : ℤ) : List Char → Option (ℤ × ℤ)
  | [] => some (n, d)
  | c :: rest =>
    if c = 'e' ∨ c = 'E' then
      match rest with
      | '+' :: r2 => pyFloatExpDigits n d false r2
      | '-' :: r2 => pyFloatExpDigits n d true r2
      | r2 => pyFloatExpDigits n d false r2
    else none

def pyFloatBody (t : List Char) : Option (ℤ × ℤ) :=
  match takeDigits t with
  | (ip, '.' :: r2) =>
    if ip = [] ∧ (takeDigits r2).1 = [] then none
    else pyFloatExp
      ((digitsToNat ip : ℤ) * 10 ^ (takeDigits r2).1.length +
        (digitsToNat (takeDigits r2).1 : ℤ))
      (10 ^ (takeDigits r2).1.length) (takeDigits r2).2
  | (ip, r1) => if ip = [] then none else pyFloatExp (digitsToNat ip : ℤ) 1 r1

/-- Modelled from the spec: Python `float(token)` acceptance and value. -/
def pyFloat? : List Char → Option ℚ
  | '-' :: rest => (pyFloatBody rest).map (fun p => Rat.divInt (-p.1) p.2)
  | '+' :: rest => (pyFloatBody rest).map (fun p => Rat.divInt p.1 p.2)
  | t => (pyFloatBody t).map (fun p => Rat.divInt p.1 p.2)

/-- Relation-symbol dispatch of `interpretFilter`. -/
def parseRel? (w : List Char) : Option RelOp :=
  if w = ">".data then some RelOp.gt
  else if w = ">=".data then some RelOp.ge
  else if w = "<".data then some RelOp.lt
  else if w = "<=".data then some RelOp.le
  else if w = "==".data ∨ w = "=".data then some RelOp.eq
  else if w = "!=".data then some RelOp.ne
  else none

mutual

/-- The tokenizing loop of `interpretFilter`: conjunction words pass through;
`saa` consumes one integer model id; any other word is a column name
consuming a relation symbol and a float cutoff; any missing or invalid part
raises (modelled as `none`).  The single `while` loop of the source is
split into one function per arm so that each equation stays small. -/
def parseWords : List (List Char) → Option (List FilterToken)
  | [] => some []
  | w :: rest =>
    if lowerL w = "and".data then
      (parseWords rest).map (fun ts => FilterToken.conj Conj.and :: ts)
    else if lowerL w = "or".data then
      (parseWords rest).map (fun ts => FilterToken.conj Conj.or :: ts)
    else if lowerL w = "xor".data then
      (parseWords rest).map (fun ts => FilterToken.conj Conj.xor :: ts)
    else if lowerL w = "saa".data then parseSaaTail rest
    else parseCondTail w rest
  termination_by structural ws => ws

/-- The `saa` arm: consume the model-id token (`int(words[i+1])`). -/
def parseSaaTail : List (List Char) → Option (List FilterToken)
  | [] => none
  | m :: rest2 =>
    match pyInt? m with
    | none => none
    | some mid =>
      (parseWords rest2).map (fun ts => FilterToken.cond (CondTok.saa mid) :: ts)
  termination_by structural ws => ws

/-- The column-condition arm: consume a relation symbol and a float cutoff
(`float(words[i+2])` is evaluated before the relation dispatch; both
failures are modelled as `none`). -/
def parseCondTail (w : List Char) : List (List Char) → Option (List FilterToken)
  | r :: c :: rest3 =>
    match pyFloat? c with
    | none => none
    | some cutoff =>
      match parseRel? r with
      | none => none
      | some rel =>
        (parseWords rest3).map
          (fun ts => FilterToken.cond (CondTok.rel w rel cutoff) :: ts)
  | _ => none
  termination_by structural ws => ws

end

inductive FilterResult
  | info
  | clear
  | parsed (toks : List FilterToken)
  | malformed
deriving DecidableEq

/-- `TimelineFilter.interpretFilter`: mode selection and tokenizing.
`none` is a missing filter argument. -/
def interpretFilter : Option (List Char) → FilterResult
  | none => FilterResult.info
  | some filter =>
    if (lowerL filter).take (min (max 4 filter.length) 11) =
        "information".data.take (min (max 4 filter.length) 11) then
      FilterResult.info
    else if lowerL filter = "clear".data ∨ lowerL filter = "reset".data then
      FilterResult.clear
    else
      match parseWords (wordsOf filter) with
      | some toks => FilterResult.parsed toks
      | none => FilterResult.malformed

lemma interpretFilter_info_iff (s : List Char) :
    interpretFilter (some s) = FilterResult.info ↔
      (lowerL s).take (min (max 4 s.length) 11) =
        "information".data.take (min (max 4 s.length) 11) := by
  rw [interpretFilter]
  by_cases h1 : (lowerL s).take (min (max 4 s.length) 11) =
      "information".data.take (min (max 4 s.length) 11)
  · rw [if_pos h1]
    exact ⟨fun _ => h1, fun _ => rfl⟩
  · rw [if_neg h1]
    constructor
    · intro h
      by_cases h2 : lowerL s = "clear".data ∨ lowerL s = "reset".data
      · rw [if_pos h2] at h
        cases h
      · rw [if_neg h2] at h
        rcases hp : parseWords (wordsOf s) with _ | toks <;> rw [hp] at h <;> cases h
    · intro h
      exact absurd h h1

lemma interpretFilter_clear_iff (s : List Char) :
    interpretFilter (some s) = FilterResult.clear ↔
      (lowerL s = "clear".data ∨ lowerL s = "reset".data) := by
  rw [interpretFilter]
  by_cases h1 : (lowerL s).take (min (max 4 s.length) 11) =
      "information".data.take (min (max 4 s.length) 11)
  · rw [if_pos h1]
    constructor
    · intro h
      cases h
    · rintro (h2 | h2)
      · exfalso
        have hlen : s.length = 5 := by
          have := congrArg List.length h2
          simp only [lowerL, List.length_map] at this
          simpa using this
        rw [hlen] at h1
        have h5 : min (max 4 5) 11 = 5 := by norm_num
        rw [h5] at h1
        have hfull : (lowerL s).take 5 = lowerL s :=
          List.take_of_length_le (by simp [lowerL, hlen])
        rw [hfull, h2] at h1
        exact absurd h1 (by decide)
      · exfalso
        have hlen : s.length = 5 := by
          have := congrArg List.length h2
          simp only [lowerL, List.length_map] at this
          simpa using this
        rw [hlen] at h1
        have h5 : min (max 4 5) 11 = 5 := by norm_num
        rw [h5] at h1
        have hfull : (lowerL s).take 5 = lowerL s :=
          List.take_of_length_le (by simp [lowerL, hlen])
        rw [hfull, h2] at h1
        exact absurd h1 (by decide)
  · rw [if_neg h1]
    by_cases h2 : lowerL s = "clear".data ∨ lowerL s = "reset".data
    · rw [if_pos h2]
      exact ⟨fun _ => h2, fun _ => rfl⟩
    · rw [if_neg h2]
      constructor
      · intro h
        rcases hp : parseWords (wordsOf s) with _ | toks <;> rw [hp] at h <;> cases h
      · intro h
        exact absurd h h2

/-- Counterexample to claim C6 as stated: the empty expression does not
select info mode (it is tokenized as an empty condition list), and
`"informationxyz"` selects info mode even though it is not a
case-insensitive prefix of `"information"`. -/
theorem interpretFilter_modes_counterexample :
    (interpretFilter (some "".data) ≠ FilterResult.info ∧
      interpretFilter (some "".data) = FilterResult.parsed []) ∧
    (interpretFilter (some "informationxyz".data) = FilterResult.info ∧
      ¬ lowerL "informationxyz".data <+: "information".data ∧
      4 ≤ ("informationxyz".data).length) := by
  exact ⟨⟨by decide, by decide⟩, by decide, by decide, by decide⟩

/-- Claim C6, amended: a missing expression selects info mode; an empty
expression selects no special mode (it parses to the empty token list);
`clear`/`reset` (case-insensitive, exact) select clear mode; a string is
recognized as the info word exactly when its length is at least 4 and its
first `min(length, 11)` characters, lowercased, equal the corresponding
prefix of `"information"` — in particular every string whose first 11
characters spell `"information"` qualifies, whatever follows them. -/
theorem interpretFilter_modes_amended :
    interpretFilter none = FilterResult.info ∧
    interpretFilter (some "".data) = FilterResult.parsed [] ∧
    (∀ s : List Char, interpretFilter (some s) = FilterResult.info ↔
      (4 ≤ s.length ∧
        (lowerL s).take 11 = "information".data.take (min s.length 11))) ∧
    (∀ s : List Char, interpretFilter (some s) = FilterResult.clear ↔
      (lowerL s = "clear".data ∨ lowerL s = "reset".data)) := by
  refine ⟨rfl, by decide, ?_, interpretFilter_clear_iff⟩
  intro s
  rw [interpretFilter_info_iff]
  have hlow : (lowerL s).length = s.length := by simp [lowerL]
  have hinfo : ("information".data).length = 11 := by decide
  rcases Nat.lt_or_ge s.length 4 with h4 | h4
  · -- too short: both sides fail
    have hL : min (max 4 s.length) 11 = 4 := by omega
    rw [hL]
    constructor
    · intro h
      exfalso
      have := congrArg List.length h
      rw [List.length_take, List.length_take, hlow, hinfo] at this
      omega
    · intro h
      omega
  · rcases le_or_lt s.length 11 with h11 | h11
    · have hL : min (max 4 s.length) 11 = s.length := by omega
      rw [hL]
      have ht1 : (lowerL s).take s.length = lowerL s :=
        List.take_of_length_le (by omega)
      have ht2 : (lowerL s).take 11 = lowerL s :=
        List.take_of_length_le (by omega)
      have hm : min s.length 11 = s.length := by omega
      rw [ht1, ht2, hm]
      constructor
      · intro h
        exact ⟨h4, h⟩
      · intro h
        exact h.2
    · have hL : min (max 4 s.length) 11 = 11 := by omega
      have hm : min s.length 11 = 11 := by omega
      rw [hL, hm]
      constructor
      · intro h
        exact ⟨by omega, h⟩
      · intro h
        exact h.2

mutual

/-- The failure conditions exactly as the claim lists them: a Condition
missing its relation or cutoff token, an `saa` Condition missing its
model-id token, an unrecognized relation symbol, or a non-numeric cutoff. -/
def claimBadParse : List (List Char) → Bool
  | [] => false
  | w :: rest =>
    if lowerL w = "and".data ∨ lowerL w = "or".data ∨ lowerL w = "xor".data then
      claimBadParse rest
    else if lowerL w = "saa".data then claimSaaTail rest
    else claimCondTail rest
  termination_by structural ws => ws

def claimSaaTail : List (List Char) → Bool
  | [] => true
  | _ :: rest2 => claimBadParse rest2
  termination_by structural ws => ws

def claimCondTail : List (List Char) → Bool
  | r :: c :: rest3 =>
    if parseRel? r = none ∨ pyFloat? c = none then true else claimBadParse rest3
  | _ => true
  termination_by structural ws => ws

end

mutual

/-- The failure conditions the code actually implements: additionally, an
`saa` model-id token that is not a valid integer literal. -/
def badParse : List (List Char) → Bool
  | [] => false
  | w :: rest =>
    if lowerL w = "and".data ∨ lowerL w = "or".data ∨ lowerL w = "xor".data then
      badParse rest
    else if lowerL w = "saa".data then badSaaTail rest
    else badCondTail rest
  termination_by structural ws => ws

def badSaaTail : List (List Char) → Bool
  | [] => true
  | m :: rest2 => if pyInt? m = none then true else badParse rest2
  termination_by structural ws => ws

def badCondTail : List (List Char) → Bool
  | r :: c :: rest3 =>
    if parseRel? r = none ∨ pyFloat? c = none then true else badParse rest3
  | _ => true
  termination_by structural ws => ws

end

/-- Counterexample to claim C10 as stated: `"saa x"` has its model-id token
present, no relation symbol and no cutoff, so none of the claim's failure
conditions holds, yet the tokenizer fails (Python `int("x")` raises). -/
theorem parseWords_failure_counterexample :
    parseWords ["saa".data, "x".data] = none ∧
    claimBadParse ["saa".data, "x".data] = false := by
  exact ⟨by decide, by decide⟩

mutual

theorem parseWords_none_iff_bad_aux :
    ∀ ws : List (List Char), parseWords ws = none ↔ badParse ws = true
  | [] => by
    constructor
    · intro h
      cases h
    · intro h
      cases h
  | w :: rest => by
    rw [parseWords, badParse]
    by_cases hand : lowerL w = "and".data
    · rw [if_pos hand, if_pos (Or.inl hand), Option.map_eq_none']
      exact parseWords_none_iff_bad_aux rest
    · rw [if_neg hand]
      by_cases hor : lowerL w = "or".data
      · rw [if_pos hor, if_pos (Or.inr (Or.inl hor)), Option.map_eq_none']
        exact parseWords_none_iff_bad_aux rest
      · rw [if_neg hor]
        by_cases hxor : lowerL w = "xor".data
        · rw [if_pos hxor, if_pos (Or.inr (Or.inr hxor)), Option.map_eq_none']
          exact parseWords_none_iff_bad_aux rest
        · rw [if_neg hxor]
          have hcomb : ¬(lowerL w = "and".data ∨ lowerL w = "or".data ∨
              lowerL w = "xor".data) := by
            rintro (h | h | h)
            · exact hand h
            · exact hor h
            · exact hxor h
          rw [if_neg hcomb]
          by_cases hsaa : lowerL w = "saa".data
          · rw [if_pos hsaa]
            rw [if_pos hsaa]
            exact parseSaaTail_none_iff rest
          · rw [if_neg hsaa]
            rw [if_neg hsaa]
            exact parseCondTail_none_iff w rest

theorem parseSaaTail_none_iff :
    ∀ ws : List (List Char), parseSaaTail ws = none ↔ badSaaTail ws = true
  | [] => ⟨fun _ => rfl, fun _ => rfl⟩
  | m :: rest2 => by
    rw [parseSaaTail, badSaaTail]
    cases hint : pyInt? m with
    | none =>
      refine ⟨fun _ => ?_, fun _ => rfl⟩
      rw [if_pos rfl]
    | some mid =>
      show (parseWords rest2).map
          (fun ts => FilterToken.cond (CondTok.saa mid) :: ts) = none ↔
        badParse rest2 = true
      rw [Option.map_eq_none']
      exact parseWords_none_iff_bad_aux rest2

theorem parseCondTail_none_iff :
    ∀ (w : List Char) (ws : List (List Char)),
      parseCondTail w ws = none ↔ badCondTail ws = true
  | _, [] => ⟨fun _ => rfl, fun _ => rfl⟩
  | _, [_] => ⟨fun _ => rfl, fun _ => rfl⟩
  | w, r :: c :: rest3 => by
    rw [parseCondTail, badCondTail]
    cases hfl : pyFloat? c with
    | none =>
      refine ⟨fun _ => ?_, fun _ => rfl⟩
      rw [if_pos (Or.inr rfl)]
    | some cutoff =>
      cases hrel : parseRel? r with
      | none =>
        refine ⟨fun _ => ?_, fun _ => rfl⟩
        rw [if_pos (Or.inl rfl)]
      | some rel =>
        show (parseWords rest3).map
            (fun ts => FilterToken.cond (CondTok.rel w rel cutoff) :: ts) = none ↔
          badParse rest3 = true
        rw [Option.map_eq_none']
        exact parseWords_none_iff_bad_aux rest3

end

/-- Claim C10, amended: tokenizing fails exactly when some Condition is
missing its relation or cutoff token, an `saa` Condition is missing its
model-id token or has one that is not a valid integer literal, the relation
symbol is unrecognized, or the cutoff token is not numeric; otherwise
parsing succeeds and returns the token sequence. -/
theorem parseWords_none_iff_badParse (ws : List (List Char)) :
    parseWords ws = none ↔ badParse ws = true :=
  parseWords_none_iff_bad_aux ws

/-! ### `TimelineFilter.setDqFlag` mask evaluation (timefilter.py 703-759)

The TIMELINE table is modelled as an environment: `col` returns a named
column, and `saa` gives the per-row result of the spherical-geometry SAA
containment test (`saaFilter`, not itself the subject of any claim here).
The first loop AND-combines consecutive conditions into `flag_a` and pushes
the combined mask together with each `or`/`xor` conjunction onto `flags`;
the second loop folds `flags` left-to-right.  Python crashes (`None.copy()`,
unbound `flag`) on malformed sequences are modelled by `Option`. -/

structure Telemetry where
  col : List Char → List ℚ
  saa : ℤ → List Bool

def evalRel (r : RelOp) (v cut : ℚ) : Bool :=
  match r with
  | RelOp.gt => decide (cut < v)
  | RelOp.ge => decide (cut ≤ v)
  | RelOp.lt => decide (v < cut)
  | RelOp.le => decide (v ≤ cut)
  | RelOp.eq => decide (v = cut)
  | RelOp.ne => decide (v ≠ cut)

def evalCond (tl : Telemetry) : CondTok → List Bool
  | CondTok.rel name r cut => (tl.col name).map (fun v => evalRel r v cut)
  | CondTok.saa model => tl.saa model

def zipAnd (a b : List Bool) : List Bool := List.zipWith (fun x y => x && y) a b

def zipOr (a b : List Bool) : List Bool := List.zipWith (fun x y => x || y) a b

def zipXor (a b : List Bool) : List Bool := List.zipWith (fun x y => Bool.xor x y) a b

inductive FlagItem
  | mask (m : List Bool)
  | oc (c : Conj)
deriving DecidableEq

structure FLState where
  flags : List FlagItem
  flag_a : Option (List Bool)
  conj : Option Conj
  saved : Bool

/-- One iteration of the first loop of `setDqFlag`. -/
def flStep (tl : Telemetry) (s : FLState) : FilterToken → Option FLState
  | FilterToken.cond c =>
    if s.conj = none ∨ s.conj = some Conj.and then
      match s.flag_a with
      | none => some { s with flag_a := some (evalCond tl c), saved := false }
      | some ma => some { s with flag_a := some (zipAnd ma (evalCond tl c)), saved := false }
    else some s
  | FilterToken.conj Conj.and => some { s with conj := some Conj.and }
  | FilterToken.conj c =>
    match s.flag_a with
    | none => none
    | some ma =>
      some { flags := s.flags ++ [FlagItem.mask ma, FlagItem.oc c],
             flag_a := none, conj := none, saved := true }

def flLoop (tl : Telemetry) : List FilterToken → FLState → Option FLState
  | [], s => some s
  | t :: rest, s =>
    match flStep tl s t with
    | none => none
    | some s2 => flLoop tl rest s2

/-- The first loop plus the trailing `if not saved: flags.append(...)`. -/
def firstLoopFrom (tl : Telemetry) (toks : List FilterToken) (s : FLState) :
    Option (List FlagItem) :=
  match flLoop tl toks s with
  | none => none
  | some s2 =>
    if s2.saved then some s2.flags
    else
      match s2.flag_a with
      | none => none
      | some ma => some (s2.flags ++ [FlagItem.mask ma])

def firstLoop (tl : Telemetry) (toks : List FilterToken) : Option (List FlagItem) :=
  firstLoopFrom tl toks ⟨[], none, none, false⟩

/-- The second loop of `setDqFlag`: fold the saved masks with `or`/`xor`. -/
def slLoop : List FlagItem → Option (List Bool) → Option Conj → Option (List Bool)
  | [], flag, _ => flag
  | FlagItem.mask m :: rest, flag, conj =>
    match conj with
    | none => slLoop rest (some m) none
    | some Conj.or =>
      match flag with
      | none => none
      | some f => slLoop rest (some (zipOr f m)) none
    | some Conj.xor =>
      match flag with
      | none => none
      | some f => slLoop rest (some (zipXor f m)) none
    | some Conj.and => none
  | FlagItem.oc c :: rest, flag, _ => slLoop rest flag (some c)

/-- The evaluated bad mask of `setDqFlag` for a token sequence. -/
def setDqMask (tl : Telemetry) (toks : List FilterToken) : Option (List Bool) :=
  match firstLoop tl toks with
  | none => none
  | some fl => slLoop fl none none

/-- A well-formed filter expression: a condition followed by
(conjunction, condition) pairs — the spec's FilterExpression invariant. -/
structure WFExpr where
  head : CondTok
  tail : List (Conj × CondTok)

def toTokens (e : WFExpr) : List FilterToken :=
  FilterToken.cond e.head ::
    e.tail.flatMap (fun p => [FilterToken.conj p.1, FilterToken.cond p.2])

/-- Stated from the spec's words: one combined mask per maximal run of
conditions joined by `and` (elementwise AND), with the `or`/`xor`
separators between the runs. -/
def groupsAux (tl : Telemetry) (cur : List Bool) :
    List (Conj × CondTok) → List Bool × List (Conj × List Bool)
  | [] => (cur, [])
  | (Conj.and, t) :: rest => groupsAux tl (zipAnd cur (evalCond tl t)) rest
  | (c, t) :: rest =>
    match groupsAux tl (evalCond tl t) rest with
    | (g, gs) => (cur, (c, g) :: gs)

/-- Stated from the spec's words: fold the combined masks left-to-right with
the separating `or`/`xor` conjunctions (the first combined mask seeds the
fold). -/
def specEval (tl : Telemetry) (e : WFExpr) : List Bool :=
  match groupsAux tl (evalCond tl e.head) e.tail with
  | (g0, gs) =>
    gs.foldl (fun acc p =>
      match p.1 with
      | Conj.or => zipOr acc p.2
      | Conj.xor => zipXor acc p.2
      | Conj.and => acc) g0

def renderGroups : List Bool × List (Conj × List Bool) → List FlagItem
  | (g0, gs) =>
    FlagItem.mask g0 :: gs.flatMap (fun p => [FlagItem.oc p.1, FlagItem.mask p.2])

lemma groupsAux_no_and (tl : Telemetry) :
    ∀ (tail : List (Conj × CondTok)) (cur : List Bool),
      ∀ p ∈ (groupsAux tl cur tail).2, p.1 ≠ Conj.and := by
  intro tail
  induction tail with
  | nil =>
    intro cur p hp
    cases hp
  | cons q rest ih =>
    intro cur p hp
    obtain ⟨c, t⟩ := q
    cases c with
    | and => exact ih (zipAnd cur (evalCond tl t)) p hp
    | or =>
      have he : (groupsAux tl cur ((Conj.or, t) :: rest)).2 =
          (Conj.or, (groupsAux tl (evalCond tl t) rest).1) ::
            (groupsAux tl (evalCond tl t) rest).2 := rfl
      rw [he] at hp
      rcases List.mem_cons.mp hp with rfl | hp'
      · intro hcon
        cases hcon
      · exact ih (evalCond tl t) p hp'
    | xor =>
      have he : (groupsAux tl cur ((Conj.xor, t) :: rest)).2 =
          (Conj.xor, (groupsAux tl (evalCond tl t) rest).1) ::
            (groupsAux tl (evalCond tl t) rest).2 := rfl
      rw [he] at hp
      rcases List.mem_cons.mp hp with rfl | hp'
      · intro hcon
        cases hcon
      · exact ih (evalCond tl t) p hp'

lemma slLoop_groups :
    ∀ (gs : List (Conj × List Bool)) (acc : List Bool),
      (∀ p ∈ gs, p.1 ≠ Conj.and) →
      slLoop (gs.flatMap (fun p => [FlagItem.oc p.1, FlagItem.mask p.2])) (some acc) none =
        some (gs.foldl (fun acc p =>
          match p.1 with
          | Conj.or => zipOr acc p.2
          | Conj.xor => zipXor acc p.2
          | Conj.and => acc) acc) := by
  intro gs
  induction gs with
  | nil =>
    intro acc _
    rfl
  | cons q rest ih =>
    intro acc hno
    obtain ⟨c, g⟩ := q
    cases c with
    | and => exact absurd rfl (hno (Conj.and, g) (List.mem_cons_self _ _))
    | or =>
      exact ih (zipOr acc g) (fun p hp => hno p (List.mem_cons_of_mem _ hp))
    | xor =>
      exact ih (zipXor acc g) (fun p hp => hno p (List.mem_cons_of_mem _ hp))

lemma firstLoopFrom_tail (tl : Telemetry) :
    ∀ (tail : List (Conj × CondTok)) (flags : List FlagItem) (cur : List Bool)
      (cj : Option Conj), (cj = none ∨ cj = some Conj.and) →
      firstLoopFrom tl
        (tail.flatMap (fun p => [FilterToken.conj p.1, FilterToken.cond p.2]))
        ⟨flags, some cur, cj, false⟩ =
      some (flags ++ renderGroups (groupsAux tl cur tail)) := by
  intro tail
  induction tail with
  | nil =>
    intro flags cur cj hcj
    rcases hcj with rfl | rfl <;> rfl
  | cons q rest ih =>
    intro flags cur cj hcj
    obtain ⟨c, t⟩ := q
    cases c with
    | and =>
      rcases hcj with rfl | rfl
      · exact ih flags (zipAnd cur (evalCond tl t)) (some Conj.and) (Or.inr rfl)
      · exact ih flags (zipAnd cur (evalCond tl t)) (some Conj.and) (Or.inr rfl)
    | or =>
      have hr : (flags ++ [FlagItem.mask cur, FlagItem.oc Conj.or]) ++
          renderGroups (groupsAux tl (evalCond tl t) rest) =
          flags ++ renderGroups (groupsAux tl cur ((Conj.or, t) :: rest)) := by
        have he : renderGroups (groupsAux tl cur ((Conj.or, t) :: rest)) =
            FlagItem.mask cur :: FlagItem.oc Conj.or ::
              renderGroups (groupsAux tl (evalCond tl t) rest) := rfl
        rw [he]
        simp
      rcases hcj with rfl | rfl
      · exact (ih (flags ++ [FlagItem.mask cur, FlagItem.oc Conj.or])
          (evalCond tl t) none (Or.inl rfl)).trans (congrArg some hr)
      · exact (ih (flags ++ [FlagItem.mask cur, FlagItem.oc Conj.or])
          (evalCond tl t) none (Or.inl rfl)).trans (congrArg some hr)
    | xor =>
      have hr : (flags ++ [FlagItem.mask cur, FlagItem.oc Conj.xor]) ++
          renderGroups (groupsAux tl (evalCond tl t) rest) =
          flags ++ renderGroups (groupsAux tl cur ((Conj.xor, t) :: rest)) := by
        have he : renderGroups (groupsAux tl cur ((Conj.xor, t) :: rest)) =
            FlagItem.mask cur :: FlagItem.oc Conj.xor ::
              renderGroups (groupsAux tl (evalCond tl t) rest) := rfl
        rw [he]
        simp
      rcases hcj with rfl | rfl
      · exact (ih (flags ++ [FlagItem.mask cur, FlagItem.oc Conj.xor])
          (evalCond tl t) none (Or.inl rfl)).trans (congrArg some hr)
      · exact (ih (flags ++ [FlagItem.mask cur, FlagItem.oc Conj.xor])
          (evalCond tl t) none (Or.inl rfl)).trans (congrArg some hr)

lemma setDqMask_eq_specEval (tl : Telemetry) (e : WFExpr) :
    setDqMask tl (toTokens e) = some (specEval tl e) := by
  have h1 : firstLoop tl (toTokens e) =
      some ([] ++ renderGroups (groupsAux tl (evalCond tl e.head) e.tail)) :=
    firstLoopFrom_tail tl e.tail [] (evalCond tl e.head) none (Or.inl rfl)
  show (match firstLoop tl (toTokens e) with
    | none => none
    | some fl => slLoop fl none none) = some (specEval tl e)
  rw [h1]
  show slLoop ((groupsAux tl (evalCond tl e.head) e.tail).2.flatMap
      (fun p => [FlagItem.oc p.1, FlagItem.mask p.2]))
    (some (groupsAux tl (evalCond tl e.head) e.tail).1) none = some (specEval tl e)
  rw [slLoop_groups _ _ (groupsAux_no_and tl e.tail (evalCond tl e.head))]
  rfl

/-- A concrete telemetry table for the expression `a > 0 and b < 0 or c > 0`. -/
def tlABC : Telemetry where
  col name :=
    if name = "a".data then [1, 1, -1, -1]
    else if name = "b".data then [-1, 1, -1, 1]
    else if name = "c".data then [-1, -1, 1, 1]
    else []
  saa _ := []

def exprABC : WFExpr where
  head := CondTok.rel "a".data RelOp.gt 0
  tail := [(Conj.and, CondTok.rel "b".data RelOp.lt 0),
           (Conj.or, CondTok.rel "c".data RelOp.gt 0)]

/-- C1: the bad mask of `setDqFlag` AND-combines each maximal run of
conditions joined by `and` into one mask and then folds those combined
masks left-to-right with the separating `or`/`xor` conjunctions; in
particular `"a > 0 and b < 0 or c > 0"` parses to the expected token
sequence and evaluates to `(a>0 AND b<0) OR (c>0)`, which differs from
the ungrouped reading `a>0 AND (b<0 OR c>0)` on a concrete table. -/
theorem setDqMask_and_groups_or_xor_fold :
    (∀ (tl : Telemetry) (e : WFExpr), setDqMask tl (toTokens e) = some (specEval tl e)) ∧
    parseWords (wordsOf "a > 0 and b < 0 or c > 0".data) = some (toTokens exprABC) ∧
    setDqMask tlABC (toTokens exprABC) =
      some (zipOr (zipAnd [true, true, false, false] [true, false, true, false])
        [false, false, true, true]) ∧
    setDqMask tlABC (toTokens exprABC) ≠
      some (zipAnd [true, true, false, false]
        (zipOr [true, false, true, false] [false, false, true, true])) :=
  ⟨setDqMask_eq_specEval, by decide, by decide, by decide⟩

/-! ### Applying bad intervals to the DQ column (timefilter.py 765-789)
and `clearDqFlag` (timefilter.py 638-641) -/

/-- Modelled from the spec: `ccos.range(time, t0, t1)` (external C code)
maps a time window to the half-open index range of events with
`t0 <= time < t1`; this is its lower index: the number of events whose
time is strictly before `t0` (the event times are sorted ascending). -/
def rangeLo : List ℚ → ℚ → ℕ
  | [], _ => 0
  | x :: rest, t => if t ≤ x then 0 else rangeLo rest t + 1

/-- `dq[i:j] |= v`, with `k` the index of the first element of the list. -/
def orRange (i j v : ℕ) : List ℕ → ℕ → List ℕ
  | [], _ => []
  | d :: rest, k => (if i ≤ k ∧ k < j then d ||| v else d) :: orRange i j v rest (k + 1)

def orRangeL (dq : List ℕ) (i j v : ℕ) : List ℕ := orRange i j v dq 0

/-- The third loop of `setDqFlag`: scan the bad mask over the TIMELINE
grid, and for each maximal bad run OR `DQ_BAD_TIME` into the DQ entries
of the events in the corresponding time window (`dq[i:j] |= DQ_BAD_TIME`;
for a run reaching the end of the grid, `dq[i:nevents]`). -/
def setDqAux (tcol : ℕ → ℚ) (etime : List ℚ) :
    List Bool → ℕ → Option ℕ → List ℕ → List ℕ
  | [], _, none, dq => dq
  | [], _, some ki, dq =>
    orRange (rangeLo etime (tcol ki)) etime.length DQ_BAD_TIME dq 0
  | true :: rest, k, none, dq => setDqAux tcol etime rest (k + 1) (some k) dq
  | false :: rest, k, none, dq => setDqAux tcol etime rest (k + 1) none dq
  | true :: rest, k, some ki, dq => setDqAux tcol etime rest (k + 1) (some ki) dq
  | false :: rest, k, some ki, dq =>
    setDqAux tcol etime rest (k + 1) none
      (orRange (rangeLo etime (tcol ki)) (rangeLo etime (tcol k)) DQ_BAD_TIME dq 0)

def setDqRun (tcol : ℕ → ℚ) (etime : List ℚ) (flag : List Bool) (dq : List ℕ) :
    List ℕ :=
  setDqAux tcol etime flag 0 none dq

/-- `clearDqFlag`: `dq &= ~DQ_BAD_TIME` on 16-bit integers. -/
def clearDq (dq : List ℕ) : List ℕ :=
  dq.map (fun d => d &&& (2 ^ 16 - 1 ^^^ DQ_BAD_TIME))

def tcolC5 : ℕ → ℚ := fun k => ([0, 1] : List ℚ).getD k 0

/-- C5 counterexample: telemetry grid `[0, 1]`, event times `[-1, 0, 1, 2]`
(a strictly larger time range than the grid), mask entirely bad; the first
event (time `-1`, before the first telemetry sample) does NOT receive
`DQ_BAD_TIME`, so the single bad interval does not cover the full
event-stream duration. -/
theorem setDqRun_all_bad_counterexample :
    (∀ b ∈ ([true, true] : List Bool), b = true) ∧
    (([-1, 0, 1, 2] : List ℚ).getD 0 0 < tcolC5 0 ∧
      tcolC5 1 < ([-1, 0, 1, 2] : List ℚ).getD 3 0) ∧
    setDqRun tcolC5 [-1, 0, 1, 2] [true, true] [0, 0, 0, 0] =
      [0, 2048, 2048, 2048] ∧
    ¬ ∀ d ∈ setDqRun tcolC5 [-1, 0, 1, 2] [true, true] [0, 0, 0, 0],
        d &&& DQ_BAD_TIME ≠ 0 := by
  decide

lemma setDqAux_all_true (tcol : ℕ → ℚ) (etime : List ℚ) :
    ∀ (rest : List Bool) (k ki : ℕ) (dq : List ℕ),
      (∀ b ∈ rest, b = true) →
      setDqAux tcol etime rest k (some ki) dq =
        orRange (rangeLo etime (tcol ki)) etime.length DQ_BAD_TIME dq 0 := by
  intro rest
  induction rest with
  | nil => intro k ki dq _; rfl
  | cons b rest ih =>
    intro k ki dq hall
    have hb : b = true := hall b (List.mem_cons_self _ _)
    subst hb
    exact ih (k + 1) ki dq (fun x hx => hall x (List.mem_cons_of_mem _ hx))

lemma orRange_getD (i j v : ℕ) :
    ∀ (dq : List ℕ) (k m : ℕ), m < dq.length →
      (orRange i j v dq k).getD m 0 =
        if i ≤ k + m ∧ k + m < j then dq.getD m 0 ||| v else dq.getD m 0 := by
  intro dq
  induction dq with
  | nil => intro k m hm; cases hm
  | cons d rest ih =>
    intro k m hm
    cases m with
    | zero => simp [orRange]
    | succ m =>
      have hm' : m < rest.length := by simpa using Nat.lt_of_succ_lt_succ hm
      have := ih (k + 1) m hm'
      show (orRange i j v rest (k + 1)).getD m 0 = _
      rw [this]
      have he : k + 1 + m = k + (m + 1) := by omega
      rw [he]
      rfl

/-- C5 amended: when the bad mask is true at every telemetry sample (and
nonempty), the events flagged with `DQ_BAD_TIME` are exactly those from the
first event whose time is at or after the first telemetry timestamp to the
end of the stream; events strictly before the first telemetry timestamp
keep their DQ value unchanged, so the flagged range need not cover the full
event-stream duration. -/
theorem setDqRun_all_bad_amended (tcol : ℕ → ℚ) (etime : List ℚ)
    (flag : List Bool) (dq : List ℕ)
    (hne : flag ≠ []) (hall : ∀ b ∈ flag, b = true) :
    setDqRun tcol etime flag dq =
      orRangeL dq (rangeLo etime (tcol 0)) etime.length DQ_BAD_TIME ∧
    (∀ m : ℕ, m < dq.length → rangeLo etime (tcol 0) ≤ m → m < etime.length →
      (setDqRun tcol etime flag dq).getD m 0 = dq.getD m 0 ||| DQ_BAD_TIME) ∧
    (∀ m : ℕ, m < dq.length → m < rangeLo etime (tcol 0) →
      (setDqRun tcol etime flag dq).getD m 0 = dq.getD m 0) := by
  obtain ⟨b, rest, rfl⟩ := List.exists_cons_of_ne_nil hne
  have hb : b = true := hall b (List.mem_cons_self _ _)
  subst hb
  have hmain : setDqRun tcol etime (true :: rest) dq =
      orRange (rangeLo etime (tcol 0)) etime.length DQ_BAD_TIME dq 0 :=
    setDqAux_all_true tcol etime rest 1 0 dq
      (fun x hx => hall x (List.mem_cons_of_mem _ hx))
  refine ⟨hmain, ?_, ?_⟩
  · intro m hm h1 h2
    rw [hmain, orRange_getD _ _ _ dq 0 m hm]
    rw [if_pos ⟨by omega, by omega⟩]
  · intro m hm h1
    rw [hmain, orRange_getD _ _ _ dq 0 m hm]
    rw [if_neg (by omega)]

theorem setDqRun_all_bad_amended_witness :
    (([true, true] : List Bool) ≠ [] ∧ ∀ b ∈ ([true, true] : List Bool), b = true) ∧
    setDqRun tcolC5 [-1, 0, 1, 2] [true, true] [0, 0, 0, 0] =
      orRangeL [0, 0, 0, 0] (rangeLo [-1, 0, 1, 2] (tcolC5 0))
        ([(-1 : ℚ), 0, 1, 2].length) DQ_BAD_TIME :=
  ⟨⟨by decide, by decide⟩,
    (setDqRun_all_bad_amended tcolC5 [-1, 0, 1, 2] [true, true] [0, 0, 0, 0]
      (by decide) (by decide)).1⟩

lemma dqbt_eq_pow : DQ_BAD_TIME = 2 ^ 11 := rfl

lemma testBit11_of_and (d : ℕ) (h : d &&& DQ_BAD_TIME = 0) :
    d.testBit 11 = false := by
  have h2 := congrArg (fun x => Nat.testBit x 11) h
  simp only [Nat.testBit_land, dqbt_eq_pow, Nat.testBit_two_pow, Nat.zero_testBit] at h2
  simpa using h2

lemma and_mask_eq_self (d : ℕ) (hlt : d < 2 ^ 16) (h11 : d.testBit 11 = false) :
    d &&& (2 ^ 16 - 1 ^^^ DQ_BAD_TIME) = d := by
  apply Nat.eq_of_testBit_eq
  intro i
  simp only [Nat.testBit_land, Nat.testBit_xor, Nat.testBit_two_pow_sub_one,
    dqbt_eq_pow, Nat.testBit_two_pow]
  cases hd : d.testBit i with
  | false => simp
  | true =>
    have hge : 2 ^ i ≤ d := Nat.testBit_implies_ge hd
    have hi : i < 16 := by
      by_contra hc
      have : (2 : ℕ) ^ 16 ≤ 2 ^ i := Nat.pow_le_pow_right (by norm_num) (not_lt.mp hc)
      omega
    have hne : (11 : ℕ) ≠ i := by
      intro h
      rw [← h, h11] at hd
      cases hd
    simp [hi, hne]

lemma or_clear_eq_self (d : ℕ) (hlt : d < 2 ^ 16) (h11 : d.testBit 11 = false) :
    (d ||| DQ_BAD_TIME) &&& (2 ^ 16 - 1 ^^^ DQ_BAD_TIME) = d := by
  apply Nat.eq_of_testBit_eq
  intro i
  simp only [Nat.testBit_land, Nat.testBit_lor, Nat.testBit_xor,
    Nat.testBit_two_pow_sub_one, dqbt_eq_pow, Nat.testBit_two_pow]
  cases hd : d.testBit i with
  | true =>
    have hge : 2 ^ i ≤ d := Nat.testBit_implies_ge hd
    have hi : i < 16 := by
      by_contra hc
      have : (2 : ℕ) ^ 16 ≤ 2 ^ i := Nat.pow_le_pow_right (by norm_num) (not_lt.mp hc)
      omega
    have hne : (11 : ℕ) ≠ i := by
      intro h
      rw [← h, h11] at hd
      cases hd
    simp [hi, hne]
  | false =>
    by_cases h : (11 : ℕ) = i
    · subst h
      simp
    · simp [h]

/-- Each intermediate DQ entry is the original entry, possibly with the
bad-time bit OR-ed in. -/
def dqRel (a b : ℕ) : Prop := a = b ∨ a = b ||| DQ_BAD_TIME

lemma dqRel_or {a b : ℕ} (h : dqRel a b) : dqRel (a ||| DQ_BAD_TIME) b := by
  rcases h with rfl | rfl
  · exact Or.inr rfl
  · refine Or.inr ?_
    rw [Nat.lor_assoc, Nat.or_self]

lemma dqRel_refl (b : ℕ) : dqRel b b := Or.inl rfl

lemma orRange_rel (i j : ℕ) :
    ∀ {dq dq0 : List ℕ}, List.Forall₂ dqRel dq dq0 → ∀ (k : ℕ),
      List.Forall₂ dqRel (orRange i j DQ_BAD_TIME dq k) dq0 := by
  intro dq dq0 h
  induction h with
  | nil => intro k; exact List.Forall₂.nil
  | cons hab _ ih =>
    intro k
    refine List.Forall₂.cons ?_ (ih (k + 1))
    by_cases hk : i ≤ k ∧ k < j
    · rw [if_pos hk]; exact dqRel_or hab
    · rw [if_neg hk]; exact hab

lemma setDqAux_rel (tcol : ℕ → ℚ) (etime : List ℚ) :
    ∀ (flag : List Bool) (k : ℕ) (st : Option ℕ) {dq dq0 : List ℕ},
      List.Forall₂ dqRel dq dq0 →
      List.Forall₂ dqRel (setDqAux tcol etime flag k st dq) dq0 := by
  intro flag
  induction flag with
  | nil =>
    intro k st dq dq0 h
    cases st with
    | none => exact h
    | some ki => exact orRange_rel _ _ h 0
  | cons b rest ih =>
    intro k st dq dq0 h
    cases st with
    | none =>
      cases b with
      | true => exact ih (k + 1) (some k) h
      | false => exact ih (k + 1) none h
    | some ki =>
      cases b with
      | true => exact ih (k + 1) (some ki) h
      | false => exact ih (k + 1) none (orRange_rel _ _ h 0)

lemma clearDq_of_rel :
    ∀ {dq dq0 : List ℕ}, List.Forall₂ dqRel dq dq0 →
      (∀ d ∈ dq0, d < 2 ^ 16 ∧ d &&& DQ_BAD_TIME = 0) →
      clearDq dq = dq0 := by
  intro dq dq0 h
  induction h with
  | nil => intro _; rfl
  | cons hab htl ih =>
    intro hP
    rename_i a b l1 l2
    have hb := hP b (List.mem_cons_self _ _)
    have h11 : b.testBit 11 = false := testBit11_of_and b hb.2
    show (a &&& (2 ^ 16 - 1 ^^^ DQ_BAD_TIME)) :: clearDq l1 = b :: l2
    rw [ih (fun d hd => hP d (List.mem_cons_of_mem _ hd))]
    rcases hab with rfl | rfl
    · rw [and_mask_eq_self a hb.1 h11]
    · rw [or_clear_eq_self b hb.1 h11]

/-- C7: on a DQ column whose entries are 16-bit values with the bad-time
bit clear, flagging any set of bad intervals (`setDqFlag`'s third loop)
followed by `clearDqFlag`'s `dq &= ~DQ_BAD_TIME` restores the original
DQ column exactly, bit for bit. -/
theorem setDq_clearDq_roundtrip (tcol : ℕ → ℚ) (etime : List ℚ)
    (flag : List Bool) (dq : List ℕ)
    (h : ∀ d ∈ dq, d < 2 ^ 16 ∧ d &&& DQ_BAD_TIME = 0) :
    clearDq (setDqRun tcol etime flag dq) = dq :=
  clearDq_of_rel (setDqAux_rel tcol etime flag 0 none (List.forall₂_same.mpr (fun x _ => dqRel_refl x))) h

theorem setDq_clearDq_roundtrip_witness :
    (∀ d ∈ ([3, 5, 7] : List ℕ), d < 2 ^ 16 ∧ d &&& DQ_BAD_TIME = 0) ∧
    clearDq (setDqRun tcolC5 [-1, 0, 1, 2] [true, false] [3, 5, 7]) = [3, 5, 7] :=
  ⟨by decide,
    setDq_clearDq_roundtrip tcolC5 [-1, 0, 1, 2] [true, false] [3, 5, 7] (by decide)⟩
